import Mathlib

/-!
Shallow embedding of the vorm migration engine (Go sources under
internal/migration, internal/utils, internal/database, pkg/errors), with the
database modelled as an explicit ledger state and the SQL connection modelled
as an oracle `dbExec : String → Option String` (`none` = statement succeeded,
`some txt` = the database rejected the statement with error text `txt`).

String operations are modelled by structurally recursive functions over
`List Char` (mirroring Go's `strings` package on the data the engine
manipulates) so that every definition evaluates inside the kernel.

Wall-clock values (applied-at timestamps, execution duration) are not part of
the model; no claim mentions them.  The content hash (SHA-256 in the source)
is a parameter `hash : String → String` of the discovery functions: every
theorem below holds for an arbitrary hash function.
-/

namespace Vorm

/-! ## Go `strings` primitives, modelled over `List Char` -/

/-- Models `unicode.IsSpace` on the ASCII range (the engine only trims ASCII
whitespace around SQL text). -/
def isSpaceChar (c : Char) : Bool :=
  c == ' ' || c == '\t' || c == '\n' || c == '\r' || c == '\x0b' || c == '\x0c'

/-- Drop leading and trailing whitespace characters. -/
def trimChars (cs : List Char) : List Char :=
  ((cs.dropWhile isSpaceChar).reverse.dropWhile isSpaceChar).reverse

/-- Models Go `strings.TrimSpace`. -/
def trimSpace (s : String) : String := String.mk (trimChars s.data)

/-- Worker for `splitOnChar`: accumulates the current fragment reversed. -/
def splitOnCharAux (sep : Char) : List Char → List Char → List String
  | [], acc => [String.mk acc.reverse]
  | c :: rest, acc =>
    if c == sep then String.mk acc.reverse :: splitOnCharAux sep rest []
    else splitOnCharAux sep rest (c :: acc)

/-- Models Go `strings.Split(s, sep)` for a one-character separator (the
source only splits on ";" and on "\n"). -/
def splitOnChar (sep : Char) (s : String) : List String :=
  splitOnCharAux sep s.data []

/-- Models Go `strings.HasPrefix(s, pre)`. -/
def hasPrefixStr (s pre : String) : Bool := pre.data.isPrefixOf s.data

/-- Models Go `strings.HasSuffix(s, suf)`. -/
def hasSuffixStr (s suf : String) : Bool := suf.data.reverse.isPrefixOf s.data.reverse

/-- Worker for `containsSub`: does `pat` occur at some position of the list? -/
def containsSubAux (pat : List Char) : List Char → Bool
  | [] => pat.isEmpty
  | c :: rest => pat.isPrefixOf (c :: rest) || containsSubAux pat rest

/-- Models Go `strings.Contains(s, pat)`. -/
def containsSub (s pat : String) : Bool := containsSubAux pat.data s.data

/-- Lexicographic comparison of character lists by code point; agrees with
Go's byte-wise string `<=` on UTF-8 text (UTF-8 preserves code-point order). -/
def charListLe : List Char → List Char → Bool
  | [], _ => true
  | _ :: _, [] => false
  | a :: as, b :: bs =>
    if a.toNat < b.toNat then true
    else if a.toNat = b.toNat then charListLe as bs
    else false

/-- Go string `<=` (the sort in `LoadMigrations` orders filenames by `<`;
a sorted-ascending permutation is its contract). -/
def strLeB (a b : String) : Bool := charListLe a.data b.data

/-! ## pkg/errors: the single error struct of the source -/

/-- Models `errors.MigrationError` (pkg/errors/errors.go); the `Timestamp`
field is wall-clock and omitted. -/
structure MigrationError where
  type : String
  message : String
  details : String
  migration : String
  deriving Repr, DecidableEq

/-- Models `errors.NewMigrationError`. -/
def newMigrationError (message details migration : String) : MigrationError :=
  ⟨"migration", message, details, migration⟩

/-- Models `errors.NewValidationError`. -/
def newValidationError (message details : String) : MigrationError :=
  ⟨"validation", message, details, ""⟩

/-- Models `errors.NewFileError`. -/
def newFileError (message details : String) : MigrationError :=
  ⟨"file", message, details, ""⟩

/-- Models `(*MigrationError).Error()`. -/
def MigrationError.render (e : MigrationError) : String :=
  if e.migration ≠ "" then
    "[" ++ e.type ++ "] " ++ e.message ++ " (migration: " ++ e.migration ++ "): " ++ e.details
  else
    "[" ++ e.type ++ "] " ++ e.message ++ ": " ++ e.details

/-! ## Data model -/

/-- Models the parsed-definition part of `migration.Migration`
(internal/migration/executor.go).  The `ID/Batch/ExecutedAt/ExecutionTime`
fields of the Go struct are only populated on rows read back from the ledger
table; those rows are modelled separately as `LedgerEntry`. -/
structure Migration where
  name : String
  filename : String
  checksum : String
  upSQL : String
  downSQL : String
  deriving Repr, DecidableEq

/-- One row of the ledger table
`(id BIGSERIAL, migration UNIQUE, batch, executed_at, execution_time, checksum)`
created by `database.Creator.CreateMigrationsTable`; the two wall-clock
columns are omitted. -/
structure LedgerEntry where
  id : Nat
  name : String
  batch : Nat
  checksum : String
  deriving Repr, DecidableEq

/-- The database-resident state the engine mutates.  `ledger` is kept in
ascending `id` order (ids are assigned from the strictly increasing `nextId`,
mirroring the BIGSERIAL primary key), so a query with `ORDER BY id ASC`
returns `ledger` itself and `ORDER BY id DESC` returns `ledger.reverse`. -/
structure DBState where
  ledger : List LedgerEntry
  nextId : Nat
  deriving Repr, DecidableEq

/-- Result of an engine operation: the database state after the call, the SQL
statements the engine handed to the connection (in execution order — the
observable effect of `tx.Exec`), and the returned error, if any. -/
structure RunResult where
  state : DBState
  trace : List String
  err : Option MigrationError
  deriving Repr, DecidableEq

/-! ## internal/utils: name handling (unnamed utils source, part_007) -/

/-- One step of the regexp `([a-z0-9])([A-Z])` → `${1}_${2}` rewrite in
`ToSnakeCase`: the two character classes are disjoint, so Go's left-to-right
non-overlapping replacement inserts an underscore between every adjacent
lower/digit–upper pair. -/
def camelBoundary : List Char → List Char
  | [] => []
  | [c] => [c]
  | c1 :: c2 :: rest =>
    if (c1.isLower || c1.isDigit) && c2.isUpper then
      c1 :: '_' :: camelBoundary (c2 :: rest)
    else
      c1 :: camelBoundary (c2 :: rest)

/-- Collapse runs of underscores to a single one (the regexp `_+` → `_`). -/
def collapseUnderscores : List Char → List Char
  | '_' :: '_' :: rest => collapseUnderscores ('_' :: rest)
  | c :: rest => c :: collapseUnderscores rest
  | [] => []

/-- Models `strings.Trim(s, "_")`. -/
def trimUnderscores (cs : List Char) : List Char :=
  ((cs.dropWhile (· == '_')).reverse.dropWhile (· == '_')).reverse

/-- Models `utils.ToSnakeCase`: camel boundaries get an underscore, letters
are lowercased, spaces and hyphens become underscores, underscore runs are
collapsed, and leading/trailing underscores are trimmed. -/
def ToSnakeCase (s : String) : String :=
  if s = "" then ""
  else
    let cs := camelBoundary s.data
    let cs := cs.map Char.toLower
    let cs := cs.map fun c => if c == ' ' then '_' else c
    let cs := cs.map fun c => if c == '-' then '_' else c
    String.mk (trimUnderscores (collapseUnderscores cs))

/-- Models `utils.ValidateMigrationName` (`^[a-zA-Z0-9_]+$`). -/
def ValidateMigrationName (name : String) : Bool :=
  name ≠ "" && name.data.all fun c => c.isAlpha || c.isDigit || c == '_'

/-- Models `utils.SanitizeMigrationName`: snake-case, strip characters
outside `[a-zA-Z0-9_]`, and prepend `migration_` when the result starts with
a digit. -/
def SanitizeMigrationName (name : String) : String :=
  let n := ToSnakeCase name
  let n := String.mk (n.data.filter fun c => c.isAlpha || c.isDigit || c == '_')
  if n ≠ "" && (n.data.headD ' ').isDigit then "migration_" ++ n else n

/-- Models `utils.ParseMigrationFilename`: strip a `.sql` suffix, then match
`^(\d{4}_\d{2}_\d{2}_\d{6})_(.+)$` (Go's `.` does not match a newline). -/
def ParseMigrationFilename (filename : String) : Option (String × String) :=
  let base :=
    if hasSuffixStr filename ".sql" then
      String.mk (filename.data.take (filename.data.length - 4))
    else filename
  match base.data with
  | y1 :: y2 :: y3 :: y4 :: u1 :: mo1 :: mo2 :: u2 :: d1 :: d2 :: u3 ::
      h1 :: h2 :: h3 :: h4 :: h5 :: h6 :: u4 :: rest =>
    if ([y1, y2, y3, y4, mo1, mo2, d1, d2, h1, h2, h3, h4, h5, h6].all Char.isDigit)
        && u1 == '_' && u2 == '_' && u3 == '_' && u4 == '_'
        && !rest.isEmpty && rest.all (· ≠ '\n') then
      some (String.mk [y1, y2, y3, y4, '_', mo1, mo2, '_', d1, d2, '_',
                       h1, h2, h3, h4, h5, h6],
            String.mk rest)
    else none
  | _ => none

/-- Models `utils.GenerateMigrationFilename` with the wall-clock
`GenerateTimestamp()` value passed in as `timestamp`. -/
def GenerateMigrationFilename (timestamp name : String) : String :=
  timestamp ++ "_" ++ SanitizeMigrationName name ++ ".sql"

/-- The name `Generator.GenerateMigration` feeds to
`utils.GenerateMigrationFilename`: the label itself when it validates,
otherwise its sanitized form. -/
def generateMigrationInputName (label : String) : String :=
  if ValidateMigrationName label then label else SanitizeMigrationName label

/-- The filename produced by `Generator.GenerateMigration(label)` (the
file-writing and SQL-template parts are environment effects outside the
claims). -/
def generatedFilename (timestamp label : String) : String :=
  GenerateMigrationFilename timestamp (generateMigrationInputName label)

/-! ## Discovery: Generator.LoadMigrations (internal/migration/executor.go) -/

/-- A file visited by `filepath.WalkDir` under the migrations directory:
`path` is its relative path as segments (length ≥ 2 means the file sits in a
subdirectory), `content` its text.  A filesystem is the list of such files in
`WalkDir` visiting order (depth-first, lexical); directory entries themselves
are always skipped by the walk callback's `d.IsDir()` guard and therefore are
not represented. -/
structure FSFile where
  path : List String
  content : String
  deriving Repr, DecidableEq

/-- The full path `WalkDir` hands to the callback. -/
def fullPath (migrationsPath : String) (f : FSFile) : String :=
  f.path.foldl (fun acc seg => acc ++ "/" ++ seg) migrationsPath

/-- The substring after the last `/`, as computed in `loadMigrationFile`
(path segments do not contain `/`). -/
def baseName (f : FSFile) : String := f.path.getLastD ""

/-- Splitter used by `parseMigrationContent` (strings.Split on `"\n"`). -/
def splitLines (s : String) : List String := splitOnChar '\n' s

/-- The section scanner of `Generator.parseMigrationContent`: `sect` is 0
before any marker, 1 after a line containing `-- +migrate Up`, 2 after a line
containing `-- +migrate Down`; marker lines themselves are dropped and
content before the first marker is discarded. -/
def parseContentLoop : List String → Nat → List String → List String →
    List String × List String
  | [], _, ups, downs => (ups.reverse, downs.reverse)
  | line :: rest, sect, ups, downs =>
    if containsSub (trimSpace line) "-- +migrate Up" then
      parseContentLoop rest 1 ups downs
    else if containsSub (trimSpace line) "-- +migrate Down" then
      parseContentLoop rest 2 ups downs
    else if sect = 1 then parseContentLoop rest 1 (line :: ups) downs
    else if sect = 2 then parseContentLoop rest 2 ups (line :: downs)
    else parseContentLoop rest sect ups downs

/-- Models `Generator.parseMigrationContent`: forward and reverse SQL bodies
of a migration file. -/
def parseMigrationContent (content : String) : String × String :=
  let r := parseContentLoop (splitLines content) 0 [] []
  (String.intercalate "\n" r.1, String.intercalate "\n" r.2)

/-- Models `Generator.loadMigrationFile` on an already-read file: reject an
invalid filename with a validation error, otherwise parse the bodies and
fingerprint the entire raw content. -/
def loadMigrationFile (hash : String → String) (filename content : String) :
    Except MigrationError Migration :=
  match ParseMigrationFilename filename with
  | none => .error (newValidationError "Invalid migration filename" filename)
  | some parsed =>
    let bodies := parseMigrationContent content
    .ok ⟨parsed.2, filename, hash content, bodies.1, bodies.2⟩

/-- The `WalkDir` callback loop of `Generator.LoadMigrations`: skip paths not
ending in `.sql` (directory entries are skipped by the `d.IsDir()` guard and
not represented in the file list); the first file error aborts the walk. -/
def loadMigrationsLoop (hash : String → String) (migrationsPath : String) :
    List FSFile → Except MigrationError (List Migration)
  | [] => .ok []
  | f :: rest =>
    if !hasSuffixStr (fullPath migrationsPath f) ".sql" then
      loadMigrationsLoop hash migrationsPath rest
    else
      match loadMigrationFile hash (baseName f) f.content with
      | .error e => .error e
      | .ok m => (loadMigrationsLoop hash migrationsPath rest).map (m :: ·)

/-- Insert into a filename-sorted list of migrations. -/
def insertByFilename (m : Migration) : List Migration → List Migration
  | [] => [m]
  | x :: xs =>
    if strLeB m.filename x.filename then m :: x :: xs
    else x :: insertByFilename m xs

/-- Models the `sort.Slice(migrations, filename <)` call at the end of
`Generator.LoadMigrations`: a permutation sorted ascending by filename. -/
def sortByFilename : List Migration → List Migration
  | [] => []
  | m :: ms => insertByFilename m (sortByFilename ms)

/-- Models `Generator.LoadMigrations`: walk the directory tree, load every
`.sql` file, abort on the first error (wrapped in a file error as in the
source), and sort the result by filename.  The `EnsureDirectoryExists` call
is an environment effect (the directory is the `files` argument here). -/
def LoadMigrations (hash : String → String) (migrationsPath : String)
    (files : List FSFile) : Except MigrationError (List Migration) :=
  match loadMigrationsLoop hash migrationsPath files with
  | .error e => .error (newFileError "Failed to load migrations" e.render)
  | .ok ms => .ok (sortByFilename ms)

/-! ## internal/migration/tracker.go -/

namespace Tracker

/-- Models `Tracker.GetExecutedMigrations` (`ORDER BY id ASC`; the ledger is
kept in ascending id order, see `DBState`). -/
def GetExecutedMigrations (st : DBState) : List LedgerEntry := st.ledger

/-- Models `Tracker.GetPendingMigrations`: definitions whose name has no
ledger row. -/
def GetPendingMigrations (st : DBState) (allMigrations : List Migration) :
    List Migration :=
  let executedNames := (GetExecutedMigrations st).map (·.name)
  allMigrations.filter fun m => !executedNames.contains m.name

/-- Models `Tracker.RecordMigration`: the INSERT fails if the UNIQUE
constraint on the `migration` column is violated, otherwise a fresh row is
appended with the next id. -/
def RecordMigration (st : DBState) (m : Migration) (batch : Nat) :
    Except MigrationError DBState :=
  if (st.ledger.map (·.name)).contains m.name then
    .error (newMigrationError "Failed to record migration"
      "duplicate key value violates unique constraint" m.name)
  else
    .ok ⟨st.ledger ++ [⟨st.nextId, m.name, batch, m.checksum⟩], st.nextId + 1⟩

/-- Models `Tracker.RemoveMigration` (`DELETE ... WHERE migration = $1`):
every row whose name equals the migration's name is deleted. -/
def RemoveMigration (st : DBState) (m : Migration) : DBState :=
  ⟨st.ledger.filter fun e => !(e.name == m.name), st.nextId⟩

/-- Models `Tracker.GetLastBatch` (`SELECT COALESCE(MAX(batch), 0)`). -/
def GetLastBatch (st : DBState) : Nat :=
  st.ledger.foldl (fun acc e => max acc e.batch) 0

/-- Models `Tracker.GetMigrationsByBatch`
(`WHERE batch = $1 ORDER BY id DESC`). -/
def GetMigrationsByBatch (st : DBState) (batch : Nat) : List LedgerEntry :=
  (st.ledger.filter fun e => e.batch == batch).reverse

/-- Models `Tracker.VerifyChecksum`: a no-op when the name has no ledger row
(`pgx.ErrNoRows`), a validation error when the stored checksum differs from
the definition's current checksum.  `QueryRow` yields the first matching row,
hence `find?`. -/
def VerifyChecksum (st : DBState) (m : Migration) : Option MigrationError :=
  match st.ledger.find? (fun e => e.name == m.name) with
  | none => none
  | some entry =>
    if entry.checksum = m.checksum then none
    else
      some (newValidationError ("Migration " ++ m.name ++ " has been modified")
        ("stored checksum: " ++ entry.checksum ++ ", current checksum: " ++
          m.checksum))

end Tracker

/-! ## internal/migration/executor.go -/

namespace Executor

/-- Models `Executor.splitSQLStatements`: split on `;`, trim each fragment,
keep non-empty fragments. -/
def splitSQLStatements (sql : String) : List String :=
  ((splitOnChar ';' sql).map trimSpace).filter fun stmt => stmt ≠ ""

/-- The statement loop of `Executor.executeMigrationSQL`, indexed from `i`:
re-trim, skip empty fragments, skip fragments starting with `--`, execute the
rest in order; the first failure yields a migration error carrying the 1-based
loop index (an index into the `splitSQLStatements` output, so skipped comment
fragments still count). -/
def execStatements (dbExec : String → Option String) (migrationName : String) :
    List String → Nat → List String × Option MigrationError
  | [], _ => ([], none)
  | stmt :: rest, i =>
    let s := trimSpace stmt
    if s = "" then execStatements dbExec migrationName rest (i + 1)
    else if hasPrefixStr s "--" then execStatements dbExec migrationName rest (i + 1)
    else
      match dbExec s with
      | some errText =>
        ([s], some (newMigrationError
          ("Failed to execute SQL statement " ++ toString (i + 1))
          errText migrationName))
      | none =>
        let r := execStatements dbExec migrationName rest (i + 1)
        (s :: r.1, r.2)

/-- Models `Executor.executeMigrationSQL`; the `List String` component is the
sequence of statements handed to `tx.Exec`, in order. -/
def executeMigrationSQL (dbExec : String → Option String)
    (sql migrationName : String) : List String × Option MigrationError :=
  let s := trimSpace sql
  if s = "" then ([], none)
  else execStatements dbExec migrationName (splitSQLStatements s) 0

/-- Models `Executor.runSingleMigration`: run the forward body and record the
ledger row inside one transaction; any failure rolls the transaction back,
leaving the ledger unchanged. -/
def runSingleMigration (dbExec : String → Option String) (st : DBState)
    (m : Migration) (batch : Nat) : RunResult :=
  let r := executeMigrationSQL dbExec m.upSQL m.name
  match r.2 with
  | some e => ⟨st, r.1, some e⟩
  | none =>
    match Tracker.RecordMigration st m batch with
    | .error e => ⟨st, r.1, some e⟩
    | .ok st2 => ⟨st2, r.1, none⟩

/-- The migration loop of `Executor.RunMigrations`: sequential execution,
stopping at the first error. -/
def runMigrationsLoop (dbExec : String → Option String) (batch : Nat) :
    DBState → List Migration → RunResult
  | st, [] => ⟨st, [], none⟩
  | st, m :: rest =>
    let r := runSingleMigration dbExec st m batch
    match r.err with
    | some e => ⟨r.state, r.trace, some e⟩
    | none =>
      let r2 := runMigrationsLoop dbExec batch r.state rest
      ⟨r2.state, r.trace ++ r2.trace, r2.err⟩

/-- Models `Executor.RunMigrations`: no-op on an empty list, otherwise the
next batch number is computed once (before any limiting), the list is
truncated when `0 < limit < len`, and the migrations run sequentially. -/
def RunMigrations (dbExec : String → Option String) (st : DBState)
    (migrations : List Migration) (limit : Int) : RunResult :=
  if migrations.isEmpty then ⟨st, [], none⟩
  else
    let nextBatch := Tracker.GetLastBatch st + 1
    let migrations :=
      if 0 < limit ∧ limit < (migrations.length : Int) then
        migrations.take limit.toNat
      else migrations
    runMigrationsLoop dbExec nextBatch st migrations

/-- Models `Executor.rollbackSingleMigration`: run the reverse body and
delete the ledger row inside one transaction. -/
def rollbackSingleMigration (dbExec : String → Option String) (st : DBState)
    (m : Migration) : RunResult :=
  let r := executeMigrationSQL dbExec m.downSQL m.name
  match r.2 with
  | some e => ⟨st, r.1, some e⟩
  | none => ⟨Tracker.RemoveMigration st m, r.1, none⟩

/-- The rollback loop of `Executor.RollbackMigrations`. -/
def rollbackMigrationsLoop (dbExec : String → Option String) :
    DBState → List Migration → RunResult
  | st, [] => ⟨st, [], none⟩
  | st, m :: rest =>
    let r := rollbackSingleMigration dbExec st m
    match r.err with
    | some e => ⟨r.state, r.trace, some e⟩
    | none =>
      let r2 := rollbackMigrationsLoop dbExec r.state rest
      ⟨r2.state, r.trace ++ r2.trace, r2.err⟩

/-- Models `Executor.RollbackMigrations`: no-op on an empty list, optional
truncation, sequential reverts in the order given. -/
def RollbackMigrations (dbExec : String → Option String) (st : DBState)
    (migrations : List Migration) (limit : Int) : RunResult :=
  if migrations.isEmpty then ⟨st, [], none⟩
  else
    let migrations :=
      if 0 < limit ∧ limit < (migrations.length : Int) then
        migrations.take limit.toNat
      else migrations
    rollbackMigrationsLoop dbExec st migrations

/-- The `migrationsMap[name]` lookup used by the rollback operations: the Go
map is built by iterating `allMigrations`, so on duplicate names the later
definition wins — hence `find?` over the reversed list. -/
def migrationsMapFind (allMigrations : List Migration) (name : String) :
    Option Migration :=
  allMigrations.reverse.find? fun m => m.name == name

/-- Models `Executor.RollbackBatch`: the batch's ledger rows (descending id),
each paired with its definition's reverse body when one exists — rows without
a matching definition are silently dropped by the pairing. -/
def RollbackBatch (dbExec : String → Option String) (st : DBState)
    (batch : Nat) (allMigrations : List Migration) : RunResult :=
  let batchMigrations := Tracker.GetMigrationsByBatch st batch
  if batchMigrations.isEmpty then ⟨st, [], none⟩
  else
    let migrationsToRollback :=
      batchMigrations.filterMap fun e => migrationsMapFind allMigrations e.name
    RollbackMigrations dbExec st migrationsToRollback 0

/-- Models `Executor.ResetAllMigrations`: all executed rows, reversed into
newest-first order, paired with their definitions, then rolled back. -/
def ResetAllMigrations (dbExec : String → Option String) (st : DBState)
    (allMigrations : List Migration) : RunResult :=
  let executed := Tracker.GetExecutedMigrations st
  if executed.isEmpty then ⟨st, [], none⟩
  else
    let executedRev := executed.reverse
    let migrationsToRollback :=
      executedRev.filterMap fun e => migrationsMapFind allMigrations e.name
    RollbackMigrations dbExec st migrationsToRollback 0

end Executor

/-! ## internal/migration/manager.go -/

namespace Manager

/-- The checksum-verification loop of `Manager.RunMigrations`: verify every
loaded definition (a no-op for names not in the ledger), stopping at the
first mismatch. -/
def verifyChecksums (st : DBState) : List Migration → Option MigrationError
  | [] => none
  | m :: rest =>
    match Tracker.VerifyChecksum st m with
    | some e => some e
    | none => verifyChecksums st rest

/-- Models `Manager.RunMigrations` after `Initialize` (connection and table
creation are environment effects): load all definitions, compute the pending
set, verify the checksums of every loaded definition, then execute the
pending ones. -/
def RunMigrations (hash : String → String) (dbExec : String → Option String)
    (migrationsPath : String) (files : List FSFile) (st : DBState)
    (limit : Int) : RunResult :=
  match LoadMigrations hash migrationsPath files with
  | .error e => ⟨st, [], some e⟩
  | .ok allMigrations =>
    let pending := Tracker.GetPendingMigrations st allMigrations
    match verifyChecksums st allMigrations with
    | some e => ⟨st, [], some e⟩
    | none => Executor.RunMigrations dbExec st pending limit

/-- Models `Manager.RollbackMigrations` (the `rollback` command): load the
definitions, read the last batch, no-op when it is 0, otherwise roll that
batch back. -/
def RollbackMigrations (hash : String → String)
    (dbExec : String → Option String) (migrationsPath : String)
    (files : List FSFile) (st : DBState) : RunResult :=
  match LoadMigrations hash migrationsPath files with
  | .error e => ⟨st, [], some e⟩
  | .ok allMigrations =>
    let lastBatch := Tracker.GetLastBatch st
    if lastBatch = 0 then ⟨st, [], none⟩
    else Executor.RollbackBatch dbExec st lastBatch allMigrations

/-- Models `Manager.RollbackSteps`: reverse the executed rows into
newest-first order (the in-place swap loop), truncate to `steps` when
`0 < steps < len`, pair rows with their definitions (rows without one are
silently dropped), and revert. -/
def RollbackSteps (hash : String → String) (dbExec : String → Option String)
    (migrationsPath : String) (files : List FSFile) (st : DBState)
    (steps : Int) : RunResult :=
  match LoadMigrations hash migrationsPath files with
  | .error e => ⟨st, [], some e⟩
  | .ok allMigrations =>
    let executed := Tracker.GetExecutedMigrations st
    if executed.isEmpty then ⟨st, [], none⟩
    else
      let executedRev := executed.reverse
      let selected :=
        if 0 < steps ∧ steps < (executedRev.length : Int) then
          executedRev.take steps.toNat
        else executedRev
      let migrationsToRollback :=
        selected.filterMap fun e => Executor.migrationsMapFind allMigrations e.name
      Executor.RollbackMigrations dbExec st migrationsToRollback 0

/-- Models `Manager.ResetAllMigrations`: load the definitions and reset. -/
def ResetAllMigrations (hash : String → String)
    (dbExec : String → Option String) (migrationsPath : String)
    (files : List FSFile) (st : DBState) : RunResult :=
  match LoadMigrations hash migrationsPath files with
  | .error e => ⟨st, [], some e⟩
  | .ok allMigrations => Executor.ResetAllMigrations dbExec st allMigrations

end Manager

/-! ## Derived observables used by the theorems -/

/-- What the statement loop of `executeMigrationSQL` does with one fragment:
`none` when the loop skips it (empty after trimming, or trimmed text starting
with `--`), `some` of its trimmed text when it is handed to the database. -/
def keptStatement? (stmt : String) : Option String :=
  if trimSpace stmt = "" then none
  else if hasPrefixStr (trimSpace stmt) "--" then none
  else some (trimSpace stmt)

/-- The statements `executeMigrationSQL` hands to the database when none of
them fails. -/
def keptStatements (sql : String) : List String :=
  (Executor.splitSQLStatements (trimSpace sql)).filterMap keptStatement?

/-- Claim-side notion (C2): a fragment every line of which is blank or a
`--` comment. -/
def isCommentOnlyFragment (s : String) : Bool :=
  (splitLines s).all fun line => trimSpace line = "" || hasPrefixStr (trimSpace line) "--"

/-- Claim-side notion (C2): the statements the claim says are executed —
split on `;`, trim, drop exactly the empty and comment-only fragments. -/
def specKeptStatements (sql : String) : List String :=
  ((splitOnChar ';' sql).map trimSpace).filter fun s => s ≠ "" && !(isCommentOnlyFragment s)

/-- Claim-side notion (C9): all characters other than letters, digits and
underscores stripped from the label, with the `migration_` prefix rule. -/
def specStrippedName (label : String) : String :=
  let n := String.mk (label.data.filter fun c => c.isAlpha || c.isDigit || c == '_')
  if n ≠ "" && (n.data.headD ' ').isDigit then "migration_" ++ n else n

/-- Claim-side notion (C9, amended), written from the amended claim's words:
camelCase boundaries gain an underscore, letters are lowercased, spaces and
hyphens are CONVERTED to underscores (not stripped), runs of underscores
collapse to one and outer underscores are trimmed, every remaining character
that is not a lowercase letter, digit or underscore is stripped, and a name
that would begin with a digit is prefixed with `migration_`. -/
def specConvertedName (label : String) : String :=
  let cs := camelBoundary label.data
  let cs := cs.map Char.toLower
  let cs := cs.map fun c => if c == ' ' || c == '-' then '_' else c
  let cs := trimUnderscores (collapseUnderscores cs)
  let cs := cs.filter fun c => c.isLower || c.isDigit || c == '_'
  if (cs.headD ' ').isDigit then "migration_" ++ String.mk cs
  else String.mk cs

/-- The definition a walked file contributes to `LoadMigrations`: `none` for
non-`.sql` paths, otherwise the outcome of `loadMigrationFile`. -/
def loadedFile? (hash : String → String) (migrationsPath : String)
    (f : FSFile) : Option Migration :=
  if hasSuffixStr (fullPath migrationsPath f) ".sql" then
    (loadMigrationFile hash (baseName f) f.content).toOption
  else none

/-! ## Concrete fixtures for witnesses and counterexamples -/

/-- A database connection on which every statement succeeds. -/
def exAllOk : String → Option String := fun _ => none

/-- A connection that rejects exactly the statement `BAD`. -/
def exFailBad : String → Option String :=
  fun s => if s = "BAD" then some "boom" else none

/-- The identity as a concrete content-fingerprint function. -/
def hashId : String → String := fun s => s

/-- A well-formed migration file named `a`. -/
def fileA : FSFile :=
  ⟨["2024_01_01_000000_a.sql"],
   "-- +migrate Up\nCREATE TABLE a (x INT);\n-- +migrate Down\nDROP TABLE a;"⟩

/-- A well-formed migration file named `b`. -/
def fileB : FSFile :=
  ⟨["2024_01_01_000001_b.sql"],
   "-- +migrate Up\nCREATE TABLE b (x INT);\n-- +migrate Down\nDROP TABLE b;"⟩

/-- A file whose name does not match the migration filename pattern. -/
def fileBad : FSFile := ⟨["badname.sql"], "x"⟩

/-- A well-formed migration file inside a subdirectory `sub` of the
migrations directory. -/
def cexC3Files : List FSFile :=
  [⟨["sub", "2024_01_01_000000_a.sql"],
    "-- +migrate Up\nCREATE TABLE a (x INT);\n-- +migrate Down\nDROP TABLE a;"⟩]

/-- Decidable equality for the discovery result (both components already
have decidable equality). -/
instance {α β : Type} [DecidableEq α] [DecidableEq β] : DecidableEq (Except α β) :=
  fun a b =>
    match a, b with
    | .ok x, .ok y =>
      if h : x = y then isTrue (by rw [h]) else isFalse (by simp [h])
    | .error x, .error y =>
      if h : x = y then isTrue (by rw [h]) else isFalse (by simp [h])
    | .ok _, .error _ => isFalse (by simp)
    | .error _, .ok _ => isFalse (by simp)

/-- The parsed form of `fileA` under the identity hash. -/
def migA : Migration :=
  ⟨"a", "2024_01_01_000000_a.sql",
   "-- +migrate Up\nCREATE TABLE a (x INT);\n-- +migrate Down\nDROP TABLE a;",
   "CREATE TABLE a (x INT);", "DROP TABLE a;"⟩

/-- The parsed form of `fileB` under the identity hash. -/
def migB : Migration :=
  ⟨"b", "2024_01_01_000001_b.sql",
   "-- +migrate Up\nCREATE TABLE b (x INT);\n-- +migrate Down\nDROP TABLE b;",
   "CREATE TABLE b (x INT);", "DROP TABLE b;"⟩

/-- A ledger state in which migration `a` was applied but its stored
fingerprint differs from the current content of `fileA`. -/
def stTampered : DBState := ⟨[⟨1, "a", 1, "tampered"⟩], 2⟩

/-- A ledger state holding one unrelated migration in batch 2. -/
def stW4 : DBState := ⟨[⟨1, "m1", 2, "c1"⟩], 2⟩

/-- A ledger state where `a` and `b` were applied together in batch 1. -/
def stAB : DBState :=
  ⟨[⟨1, "a", 1, migA.checksum⟩, ⟨2, "b", 1, migB.checksum⟩], 3⟩

/-- A ledger state where only `a` was applied. -/
def stA : DBState := ⟨[⟨1, "a", 1, migA.checksum⟩], 2⟩

/-- A ledger state with `a` plus an applied row `ghost` whose definition
file no longer exists. -/
def stGhost : DBState :=
  ⟨[⟨1, "a", 1, migA.checksum⟩, ⟨2, "ghost", 1, "cg"⟩], 3⟩

/-! ## Lemmas about the statement loop -/

/-- When every kept statement succeeds, the loop executes exactly the kept
statements, in order, and reports no error. -/
theorem execStatements_all_ok (dbExec : String → Option String) (name : String) :
    ∀ (l : List String) (i : Nat),
      (∀ t ∈ l.filterMap keptStatement?, dbExec t = none) →
      Executor.execStatements dbExec name l i = (l.filterMap keptStatement?, none) := by
  intro l
  induction l with
  | nil => intro i _; rfl
  | cons stmt rest ih =>
    intro i h
    have hrest : ∀ t ∈ rest.filterMap keptStatement?, dbExec t = none := by
      intro t ht
      exact h t (by rw [List.filterMap_cons]; cases keptStatement? stmt <;> simp [ht])
    by_cases h1 : trimSpace stmt = ""
    · simp only [Executor.execStatements, h1, if_pos, List.filterMap_cons,
        keptStatement?, if_true]
      simpa [h1] using ih (i + 1) hrest
    · by_cases h2 : hasPrefixStr (trimSpace stmt) "--" = true
      · simp only [Executor.execStatements, List.filterMap_cons, keptStatement?,
          if_neg h1, if_pos h2]
        simpa [h1, h2] using ih (i + 1) hrest
      · have hexec : dbExec (trimSpace stmt) = none := by
          refine h _ ?_
          rw [List.filterMap_cons]
          simp [keptStatement?, h1, h2]
        simp only [Executor.execStatements, List.filterMap_cons, keptStatement?,
          if_neg h1, if_neg h2, hexec]
        simp [h1, h2, ih (i + 1) hrest]

/-- `executeMigrationSQL` on an all-succeeding connection: the trace is the
kept statements and there is no error. -/
theorem executeMigrationSQL_all_ok (dbExec : String → Option String)
    (sql name : String) (h : ∀ t ∈ keptStatements sql, dbExec t = none) :
    Executor.executeMigrationSQL dbExec sql name = (keptStatements sql, none) := by
  unfold Executor.executeMigrationSQL
  by_cases h0 : trimSpace sql = ""
  · have : keptStatements sql = [] := by
      unfold keptStatements
      rw [h0]
      decide
    simp [h0, this]
  · rw [if_neg h0]
    exact execStatements_all_ok dbExec name _ 0 (by simpa [keptStatements] using h)

/-- Unpacking a kept fragment. -/
theorem keptStatement?_eq_some {stmt s : String}
    (h : keptStatement? stmt = some s) :
    s = trimSpace stmt ∧ trimSpace stmt ≠ "" ∧
      hasPrefixStr (trimSpace stmt) "--" = false := by
  unfold keptStatement? at h
  split_ifs at h with h1 h2
  · exact ⟨(Option.some.injEq _ _ ▸ h.symm), h1, by simpa using h2⟩

/-- The loop on a fragment list whose first failing kept statement sits after
`pre`: the trace is the kept part of `pre` plus the failing statement, and
the error index is the 1-based position of the failing fragment among all
fragments, skipped comment fragments included. -/
theorem execStatements_fail (dbExec : String → Option String) (name : String) :
    ∀ (pre : List String) (i : Nat) (stmt s errText : String)
      (post : List String),
      (∀ t ∈ pre.filterMap keptStatement?, dbExec t = none) →
      keptStatement? stmt = some s →
      dbExec s = some errText →
      Executor.execStatements dbExec name (pre ++ stmt :: post) i =
        (pre.filterMap keptStatement? ++ [s],
         some (newMigrationError
           ("Failed to execute SQL statement " ++ toString (i + pre.length + 1))
           errText name)) := by
  intro pre
  induction pre with
  | nil =>
    intro i stmt s errText post _ hkept hfail
    obtain ⟨rfl, h1, h2⟩ := keptStatement?_eq_some hkept
    simp only [List.nil_append, Executor.execStatements, if_neg h1, h2,
      Bool.false_eq_true, if_false, hfail, List.filterMap_nil, List.length_nil]
  | cons g pre ih =>
    intro i stmt s errText post hpre hkept hfail
    have hpre' : ∀ t ∈ pre.filterMap keptStatement?, dbExec t = none := by
      intro t ht
      exact hpre t (by rw [List.filterMap_cons]; cases keptStatement? g <;> simp [ht])
    have harith : i + 1 + pre.length + 1 = i + (g :: pre).length + 1 := by
      simp; omega
    by_cases h1 : trimSpace g = ""
    · rw [List.cons_append]
      simp only [Executor.execStatements, if_pos h1]
      rw [ih (i + 1) stmt s errText post hpre' hkept hfail, harith]
      simp [List.filterMap_cons, keptStatement?, h1]
    · by_cases h2 : hasPrefixStr (trimSpace g) "--" = true
      · rw [List.cons_append]
        simp only [Executor.execStatements, if_neg h1, if_pos h2]
        rw [ih (i + 1) stmt s errText post hpre' hkept hfail, harith]
        simp [List.filterMap_cons, keptStatement?, h1, h2]
      · have hexec : dbExec (trimSpace g) = none := by
          refine hpre _ ?_
          rw [List.filterMap_cons]
          simp [keptStatement?, h1, h2]
        rw [List.cons_append]
        simp only [Executor.execStatements, if_neg h1, if_neg h2, hexec]
        rw [ih (i + 1) stmt s errText post hpre' hkept hfail, harith]
        simp [List.filterMap_cons, keptStatement?, h1, h2]

/-- C2, counterexample.  The claim says execution drops exactly the empty and
comment-ONLY fragments and indexes the error among the remaining statements.
On the body `-- a;-- b\nX;BAD` (with only `BAD` failing) the fragments are
`-- a`, `-- b\nX`, `BAD`; the fragment `-- b\nX` is not comment-only (its
second line is SQL), so per the claim it would be executed and the failure of
`BAD` would be statement 2.  The code skips every fragment that merely starts
with `--`, executes only `BAD`, and reports index 3 (skipped fragments keep
their slot in the count). -/
theorem C2_cex_comment_fragment_and_index :
    Executor.executeMigrationSQL exFailBad "-- a;-- b\nX;BAD" "m" =
      (["BAD"], some (newMigrationError "Failed to execute SQL statement 3"
        "boom" "m"))
    ∧ specKeptStatements "-- a;-- b\nX;BAD" = ["-- b\nX", "BAD"]
    ∧ (["BAD"] : List String) ≠ ["-- b\nX", "BAD"] := by
  exact ⟨by decide, by decide, by decide⟩

/-- C2, amended: executing a body splits it on `;`, trims each fragment, and
drops the fragments that are empty or whose trimmed text starts with `--`
(even when such a fragment contains SQL on later lines).  The rest run in
order inside the transaction; when every kept statement succeeds the trace is
exactly the kept statements, and the first failing statement produces an
error carrying the migration name and the 1-based index of the failing
fragment among all non-empty fragments — skipped comment fragments included
in the count. -/
theorem C2_split_exec_behaviour (dbExec : String → Option String)
    (sql name : String) :
    ((∀ t ∈ keptStatements sql, dbExec t = none) →
      Executor.executeMigrationSQL dbExec sql name = (keptStatements sql, none))
    ∧ (∀ (pre : List String) (stmt s errText : String) (post : List String),
        Executor.splitSQLStatements (trimSpace sql) = pre ++ stmt :: post →
        (∀ t ∈ pre.filterMap keptStatement?, dbExec t = none) →
        keptStatement? stmt = some s →
        dbExec s = some errText →
        Executor.executeMigrationSQL dbExec sql name =
          (pre.filterMap keptStatement? ++ [s],
           some (newMigrationError
             ("Failed to execute SQL statement " ++ toString (pre.length + 1))
             errText name))) := by
  constructor
  · exact executeMigrationSQL_all_ok dbExec sql name
  · intro pre stmt s errText post hsplit hpre hkept hfail
    have h0 : trimSpace sql ≠ "" := by
      intro h0
      rw [h0] at hsplit
      have : Executor.splitSQLStatements "" = [] := by decide
      rw [this] at hsplit
      exact List.cons_ne_nil stmt post (List.append_eq_nil.mp hsplit.symm).2
    unfold Executor.executeMigrationSQL
    rw [if_neg h0, hsplit,
      execStatements_fail dbExec name pre 0 stmt s errText post hpre hkept hfail,
      Nat.zero_add]

/-- C2, witness for the amended theorem: both branches applied at concrete
inputs. -/
theorem C2_split_exec_behaviour_witness :
    Executor.executeMigrationSQL exAllOk " CREATE TABLE t (x INT); -- done;DROP VIEW v " "m" =
      (["CREATE TABLE t (x INT)", "DROP VIEW v"], none)
    ∧ Executor.executeMigrationSQL exFailBad "-- c;BAD" "m" =
      (["BAD"], some (newMigrationError "Failed to execute SQL statement 2"
        "boom" "m")) := by
  constructor
  · exact ((C2_split_exec_behaviour exAllOk
      " CREATE TABLE t (x INT); -- done;DROP VIEW v " "m").1 (by decide)).trans
      (by decide)
  · exact ((C2_split_exec_behaviour exFailBad "-- c;BAD" "m").2
      ["-- c"] "BAD" "BAD" "boom" [] (by decide) (by decide) (by decide)
      (by decide)).trans (by decide)

/-- `Char.isUpper` unfolded to its numeric test on the code point. -/
theorem isUpper_eq_true_iff (c : Char) :
    c.isUpper = true ↔ 65 ≤ c.toNat ∧ c.toNat ≤ 90 := by
  unfold Char.isUpper
  rw [Bool.and_eq_true, decide_eq_true_eq, decide_eq_true_eq]
  exact Iff.rfl

/-- `Char.toLower` shifts an uppercase code point by 32. -/
theorem toNat_toLower_of_upper {c : Char} (h : 65 ≤ c.toNat ∧ c.toNat ≤ 90) :
    (Char.toLower c).toNat = c.toNat + 32 := by
  unfold Char.toLower
  rw [if_pos h]
  have hvalid : (c.toNat + 32).isValidChar := Or.inl (by omega)
  unfold Char.ofNat
  rw [dif_pos hvalid]
  simp [Char.toNat, Char.ofNatAux, UInt32.toNat]

/-- Lowercasing never yields an uppercase character. -/
theorem isUpper_toLower (c : Char) : (Char.toLower c).isUpper = false := by
  by_cases h : 65 ≤ c.toNat ∧ c.toNat ≤ 90
  · rw [Bool.eq_false_iff]
    intro hu
    have h2 := (isUpper_eq_true_iff _).mp hu
    rw [toNat_toLower_of_upper h] at h2
    omega
  · have heq : Char.toLower c = c := by
      unfold Char.toLower
      rw [if_neg h]
    rw [heq, Bool.eq_false_iff]
    intro hu
    exact h ((isUpper_eq_true_iff c).mp hu)

/-- First equation of `collapseUnderscores`. -/
theorem collapseUnderscores_uu (rest : List Char) :
    collapseUnderscores ('_' :: '_' :: rest) =
      collapseUnderscores ('_' :: rest) := rfl

/-- Second equation of `collapseUnderscores`, under the side condition that
the first pattern does not apply. -/
theorem collapseUnderscores_cons_ne (c0 y : Char) (rest : List Char)
    (hy : ¬(c0 = '_' ∧ y = '_')) :
    collapseUnderscores (c0 :: y :: rest) =
      c0 :: collapseUnderscores (y :: rest) := by
  rw [collapseUnderscores.eq_def]
  split
  · next r heq =>
    exfalso
    injection heq with h1 h2
    injection h2 with h3 _
    exact hy ⟨h1, h3⟩
  · next c' rest' hne' heq =>
    injection heq with h1 h2
    rw [h1, h2]
  · next heq => exact absurd heq (by simp)

/-- Collapsing underscore runs introduces no new characters. -/
theorem mem_collapseUnderscores {c : Char} :
    ∀ l : List Char, c ∈ collapseUnderscores l → c ∈ l := by
  intro l
  induction l using collapseUnderscores.induct with
  | case1 rest ih =>
    intro h
    rw [collapseUnderscores_uu] at h
    rcases List.mem_cons.mp (ih h) with h' | h'
    · rw [h']
      exact List.mem_cons_self _ _
    · exact List.mem_cons_of_mem _ (List.mem_cons_of_mem _ h')
  | case2 c0 rest hne ih =>
    intro h
    have heq : collapseUnderscores (c0 :: rest) =
        c0 :: collapseUnderscores rest := by
      cases rest with
      | nil =>
        rw [collapseUnderscores.eq_def]
        split
        · next r heq => exact absurd heq (by simp)
        · next c' rest' hne' heq =>
          injection heq with h1 h2
          rw [h1, h2]
        · next heq => exact absurd heq (by simp)
      | cons y rest2 =>
        apply collapseUnderscores_cons_ne
        intro hcon
        exact hne rest2 hcon.1 (by rw [hcon.2])
    rw [heq] at h
    rcases List.mem_cons.mp h with h' | h'
    · rw [h']
      exact List.mem_cons_self _ _
    · exact List.mem_cons_of_mem _ (ih h')
  | case3 =>
    intro h
    rw [show collapseUnderscores [] = [] from rfl] at h
    exact absurd h (List.not_mem_nil c)

/-- Trimming outer underscores introduces no new characters. -/
theorem mem_trimUnderscores {c : Char} {l : List Char}
    (h : c ∈ trimUnderscores l) : c ∈ l := by
  unfold trimUnderscores at h
  have h1 := List.mem_reverse.mp h
  have h2 := (List.dropWhile_sublist _).subset h1
  have h3 := List.mem_reverse.mp h2
  exact (List.dropWhile_sublist _).subset h3

/-- The two successive space/hyphen replacement maps of `ToSnakeCase` fuse
into the single combined replacement map. -/
theorem map_space_hyphen (l : List Char) :
    ((l.map fun c => if c == ' ' then '_' else c).map
      fun c => if c == '-' then '_' else c)
      = l.map fun c => if c == ' ' || c == '-' then '_' else c := by
  induction l with
  | nil => rfl
  | cons a t ih =>
    simp only [List.map_cons, ih]
    congr 1
    by_cases h1 : a == ' '
    · simp [h1]
    · by_cases h2 : a == '-'
      · simp [h1, h2]
      · simp [h1, h2]

/-- After lowercasing and space/hyphen replacement, no uppercase character
survives collapsing and trimming. -/
theorem processed_no_upper (l : List Char) :
    ∀ c ∈ trimUnderscores (collapseUnderscores
      ((l.map Char.toLower).map
        fun c => if c == ' ' || c == '-' then '_' else c)),
      c.isUpper = false := by
  intro c hc
  have h1 := mem_collapseUnderscores _ (mem_trimUnderscores hc)
  obtain ⟨c2, hc2, rfl⟩ := List.mem_map.mp h1
  obtain ⟨c3, hc3, rfl⟩ := List.mem_map.mp hc2
  show (if (Char.toLower c3 == ' ' || Char.toLower c3 == '-') = true
      then '_' else Char.toLower c3).isUpper = false
  by_cases hs : (Char.toLower c3 == ' ' || Char.toLower c3 == '-') = true
  · rw [if_pos hs]
    decide
  · rw [if_neg hs]
    exact isUpper_toLower c3

/-- The characters of a non-empty `ToSnakeCase` result, with the two
replacement maps fused. -/
theorem toSnakeCase_data (x : String) (hx : x ≠ "") :
    (ToSnakeCase x).data = trimUnderscores (collapseUnderscores
      (((camelBoundary x.data).map Char.toLower).map
        fun c => if c == ' ' || c == '-' then '_' else c)) := by
  unfold ToSnakeCase
  rw [if_neg hx]
  show trimUnderscores (collapseUnderscores
      ((((camelBoundary x.data).map Char.toLower).map
        fun c => if c == ' ' then '_' else c).map
        fun c => if c == '-' then '_' else c)) = _
  rw [map_space_hyphen]

/-- `ToSnakeCase` never outputs an uppercase character. -/
theorem toSnakeCase_no_upper (x : String) :
    ∀ c ∈ (ToSnakeCase x).data, c.isUpper = false := by
  by_cases hx : x = ""
  · subst hx
    intro c hc
    rw [show (ToSnakeCase "").data = [] from by decide] at hc
    exact absurd hc (List.not_mem_nil c)
  · intro c hc
    rw [toSnakeCase_data x hx] at hc
    exact processed_no_upper _ c hc

/-- On the uppercase-free `ToSnakeCase` output, the `[a-zA-Z0-9_]` filter of
`SanitizeMigrationName` agrees with the `[a-z0-9_]` filter of the claim-side
pipeline. -/
theorem sanitize_filtered (x : String) (hx : x ≠ "") :
    (ToSnakeCase x).data.filter (fun c => c.isAlpha || c.isDigit || c == '_')
      = (trimUnderscores (collapseUnderscores
          (((camelBoundary x.data).map Char.toLower).map
            fun c => if c == ' ' || c == '-' then '_' else c))).filter
          (fun c => c.isLower || c.isDigit || c == '_') := by
  rw [toSnakeCase_data x hx]
  apply List.filter_congr
  intro c hc
  have hup := processed_no_upper (camelBoundary x.data) c hc
  unfold Char.isAlpha
  rw [hup]
  simp

/-- The `migration_`-prefix guard of `SanitizeMigrationName` (non-empty AND
leading digit) coincides with the claim-side guard (leading digit with the
default `' '` head standing in for the empty list). -/
theorem prefix_cond_eq (L : List Char) :
    (if String.mk L ≠ "" && ((String.mk L).data.headD ' ').isDigit
      then "migration_" ++ String.mk L else String.mk L)
    = (if (L.headD ' ').isDigit then "migration_" ++ String.mk L
       else String.mk L) := by
  cases L with
  | nil => decide
  | cons a t =>
    have hne : String.mk (a :: t) ≠ "" := fun h => by
      have := congrArg String.data h
      simp at this
    rw [show (decide (String.mk (a :: t) ≠ "") &&
        ((String.mk (a :: t)).data.headD ' ').isDigit) =
        ((a :: t).headD ' ').isDigit from by
      rw [decide_eq_true hne, Bool.true_and]]

/-- `SanitizeMigrationName` computes exactly the claim-side conversion
pipeline `specConvertedName`. -/
theorem sanitize_eq_specConvertedName (x : String) :
    SanitizeMigrationName x = specConvertedName x := by
  by_cases hx : x = ""
  · subst hx
    decide
  · simp only [SanitizeMigrationName, specConvertedName]
    rw [sanitize_filtered x hx]
    exact prefix_cond_eq _

/-- Character-set guarantee of `SanitizeMigrationName`: the output only
contains lowercase letters, digits and underscores, and never starts with a
digit. -/
theorem sanitize_chars (x : String) :
    (∀ c ∈ (SanitizeMigrationName x).data,
      (c.isLower || c.isDigit || c == '_') = true)
    ∧ ((SanitizeMigrationName x).data.headD ' ').isDigit = false := by
  rw [sanitize_eq_specConvertedName]
  unfold specConvertedName
  set L := (trimUnderscores (collapseUnderscores
    (((camelBoundary x.data).map Char.toLower).map
      fun c => if c == ' ' || c == '-' then '_' else c))).filter
    (fun c => c.isLower || c.isDigit || c == '_') with hL
  show (∀ c ∈ (if (L.headD ' ').isDigit
        then "migration_" ++ String.mk L else String.mk L).data,
      (c.isLower || c.isDigit || c == '_') = true) ∧ _
  have hml : ∀ d ∈ ("migration_" : String).data,
      (d.isLower || d.isDigit || d == '_') = true := by decide
  by_cases hc : (L.headD ' ').isDigit = true
  · rw [if_pos hc]
    constructor
    · intro c hcmem
      rw [show ("migration_" ++ String.mk L).data =
        ("migration_" : String).data ++ L from rfl] at hcmem
      rcases List.mem_append.mp hcmem with h | h
      · exact hml c h
      · rw [hL] at h
        exact (List.mem_filter.mp h).2
    · have hm : (("migration_" ++ String.mk L).data.headD ' ') = 'm' := rfl
      rw [hm]
      decide
  · rw [if_neg hc]
    constructor
    · intro c hcmem
      rw [show (String.mk L).data = L from rfl, hL] at hcmem
      exact (List.mem_filter.mp hcmem).2
    · rw [show (String.mk L).data = L from rfl]
      simpa using hc

/-- C9, counterexample.  The claim says characters other than letters, digits
and underscores are STRIPPED from the label.  For the label `my-table` the
stripped name would be `mytable`, but the code converts the hyphen to an
underscore (ToSnakeCase) and embeds `my_table` in the filename. -/
theorem C9_cex_hyphen_not_stripped :
    generatedFilename "2025_01_01_000000" "my-table" =
      "2025_01_01_000000_my_table.sql"
    ∧ specStrippedName "my-table" = "mytable"
    ∧ ("2025_01_01_000000_my_table.sql" : String) ≠
        "2025_01_01_000000_mytable.sql" := by
  exact ⟨by decide, by decide, by decide⟩

/-- C9, amended: the name embedded in the generated filename is the label
converted by the sanitization pipeline `specConvertedName` — camelCase
boundaries gain an underscore, letters are lowercased, spaces and hyphens are
CONVERTED to underscores rather than stripped, underscore runs collapse,
outer underscores are trimmed, the remaining characters outside `[a-z0-9_]`
are stripped, and a would-be leading digit draws a `migration_` prefix —
applied once when the label is already valid (only letters, digits,
underscores) and twice otherwise; the embedded name hence contains only
lowercase letters, digits and underscores and never starts with a digit, and
the filename is the timestamp, the name and the `.sql` extension. -/
theorem C9_generated_name_conversion (timestamp label : String) :
    ∃ n, generatedFilename timestamp label = timestamp ++ "_" ++ n ++ ".sql"
      ∧ n = (if ValidateMigrationName label then specConvertedName label
             else specConvertedName (specConvertedName label))
      ∧ (∀ c ∈ n.data, (c.isLower || c.isDigit || c == '_') = true)
      ∧ ((n.data.headD ' ').isDigit = false) := by
  refine ⟨SanitizeMigrationName (generateMigrationInputName label), rfl, ?_,
    (sanitize_chars _).1, (sanitize_chars _).2⟩
  unfold generateMigrationInputName
  by_cases hv : ValidateMigrationName label = true
  · rw [if_pos hv, if_pos hv, sanitize_eq_specConvertedName]
  · rw [if_neg hv, if_neg hv]
    simp only [sanitize_eq_specConvertedName]

/-- The walk loop propagates the validation error of the first `.sql` file
whose name fails to parse, provided every earlier `.sql` file parses. -/
theorem loadMigrationsLoop_abort (hash : String → String) (p : String) :
    ∀ (pre : List FSFile) (f : FSFile) (post : List FSFile),
      (∀ g ∈ pre, hasSuffixStr (fullPath p g) ".sql" = true →
        (ParseMigrationFilename (baseName g)).isSome) →
      hasSuffixStr (fullPath p f) ".sql" = true →
      ParseMigrationFilename (baseName f) = none →
      loadMigrationsLoop hash p (pre ++ f :: post) =
        .error (newValidationError "Invalid migration filename" (baseName f)) := by
  intro pre
  induction pre with
  | nil =>
    intro f post _ hsql hbad
    rw [List.nil_append]
    simp only [loadMigrationsLoop, hsql, Bool.not_true, Bool.false_eq_true,
      if_false, loadMigrationFile, hbad]
  | cons g pre ih =>
    intro f post hpre hsql hbad
    have hpre' : ∀ g' ∈ pre, hasSuffixStr (fullPath p g') ".sql" = true →
        (ParseMigrationFilename (baseName g')).isSome := by
      intro g' hg' h
      exact hpre g' (List.mem_cons_of_mem g hg') h
    rw [List.cons_append]
    by_cases hg : hasSuffixStr (fullPath p g) ".sql" = true
    · obtain ⟨parsed, hparsed⟩ :=
        Option.isSome_iff_exists.mp (hpre g (List.mem_cons_self g pre) hg)
      simp only [loadMigrationsLoop, hg, Bool.not_true, Bool.false_eq_true,
        if_false, loadMigrationFile, hparsed,
        ih f post hpre' hsql hbad]
      rfl
    · simp only [loadMigrationsLoop, Bool.not_eq_true', Bool.not_true]
      rw [if_pos (by simpa using hg)]
      exact ih f post hpre' hsql hbad

/-- C8: the first file of the walk (in `WalkDir` order) whose name — after
removing the `.sql` extension — does not match `<timestamp>_<label>`
(`YYYY_MM_DD_HHMMSS_name`, a 14-digit timestamp) aborts the whole scan:
`LoadMigrations` returns an error identifying that filename (the validation
error raised inside the walk, rendered into the wrapping file error exactly
as `err.Error()` does) and no list of definitions. -/
theorem C8_first_bad_filename_aborts (hash : String → String) (p : String)
    (pre : List FSFile) (f : FSFile) (post : List FSFile)
    (hpre : ∀ g ∈ pre, hasSuffixStr (fullPath p g) ".sql" = true →
      (ParseMigrationFilename (baseName g)).isSome)
    (hsql : hasSuffixStr (fullPath p f) ".sql" = true)
    (hbad : ParseMigrationFilename (baseName f) = none) :
    LoadMigrations hash p (pre ++ f :: post) =
      .error (newFileError "Failed to load migrations"
        (newValidationError "Invalid migration filename" (baseName f)).render) := by
  unfold LoadMigrations
  rw [loadMigrationsLoop_abort hash p pre f post hpre hsql hbad]

/-- C8, witness: a good file followed by `badname.sql` makes the whole scan
fail with an error naming `badname.sql`. -/
theorem C8_first_bad_filename_aborts_witness :
    LoadMigrations hashId "migrations" [fileA, fileBad] =
      .error (newFileError "Failed to load migrations"
        "[validation] Invalid migration filename: badname.sql") := by
  rw [show ([fileA, fileBad] : List FSFile) = [fileA] ++ fileBad :: [] from rfl,
    C8_first_bad_filename_aborts hashId "migrations" [fileA] fileBad []
      (by decide) (by decide) (by decide),
    show (newValidationError "Invalid migration filename" (baseName fileBad)).render
      = "[validation] Invalid migration filename: badname.sql" from by decide]

/-- Unpacking a failing checksum verification. -/
theorem VerifyChecksum_some_elim {st : DBState} {m : Migration}
    {err : MigrationError} (h : Tracker.VerifyChecksum st m = some err) :
    ∃ e, st.ledger.find? (fun en => en.name == m.name) = some e ∧
      e.checksum ≠ m.checksum ∧
      err = newValidationError ("Migration " ++ m.name ++ " has been modified")
        ("stored checksum: " ++ e.checksum ++ ", current checksum: " ++
          m.checksum) := by
  unfold Tracker.VerifyChecksum at h
  cases hf : st.ledger.find? (fun en => en.name == m.name) with
  | none => rw [hf] at h; exact absurd h (by simp)
  | some e =>
    rw [hf] at h
    dsimp only at h
    by_cases hcs : e.checksum = m.checksum
    · rw [if_pos hcs] at h; exact absurd h (by simp)
    · rw [if_neg hcs] at h
      exact ⟨e, rfl, hcs, (Option.some.inj h).symm⟩

/-- When some loaded definition fails verification, the verification loop
reports the error of the first failing one. -/
theorem verifyChecksums_fail (st : DBState) :
    ∀ (l : List Migration), (∃ m ∈ l, Tracker.VerifyChecksum st m ≠ none) →
      ∃ m2 ∈ l, ∃ err, Tracker.VerifyChecksum st m2 = some err ∧
        Manager.verifyChecksums st l = some err := by
  intro l
  induction l with
  | nil =>
    rintro ⟨m, hm, _⟩
    exact absurd hm (List.not_mem_nil m)
  | cons m0 rest ih =>
    rintro ⟨m, hm, hne⟩
    cases hv : Tracker.VerifyChecksum st m0 with
    | some err =>
      exact ⟨m0, List.mem_cons_self _ _, err, hv,
        by simp [Manager.verifyChecksums, hv]⟩
    | none =>
      have hex : ∃ m' ∈ rest, Tracker.VerifyChecksum st m' ≠ none := by
        rcases List.mem_cons.mp hm with rfl | hmr
        · exact absurd hv hne
        · exact ⟨m, hmr, hne⟩
      obtain ⟨m2, hm2, err, he, hl⟩ := ih hex
      exact ⟨m2, List.mem_cons_of_mem _ hm2, err, he,
        by simp [Manager.verifyChecksums, hv, hl]⟩

/-- C1: on `apply`, after all definitions are loaded and before any pending
migration executes, the stored fingerprint of every applied migration is
compared with the recomputed one; when some loaded definition's stored and
current fingerprints differ, the run returns the validation error naming
(the first) such migration, with the database state untouched and no SQL
executed; and for a definition whose name is absent from the ledger the
check is a no-op. -/
theorem C1_checksum_gate (hash : String → String)
    (dbExec : String → Option String) (p : String) (files : List FSFile)
    (st : DBState) (limit : Int) (all : List Migration) (m : Migration)
    (entry : LedgerEntry)
    (hload : LoadMigrations hash p files = .ok all)
    (hm : m ∈ all)
    (hfind : st.ledger.find? (fun en => en.name == m.name) = some entry)
    (hne : entry.checksum ≠ m.checksum) :
    (∃ m2 ∈ all, ∃ e2, st.ledger.find? (fun en => en.name == m2.name) = some e2
      ∧ e2.checksum ≠ m2.checksum
      ∧ Manager.RunMigrations hash dbExec p files st limit =
          ⟨st, [], some (newValidationError
            ("Migration " ++ m2.name ++ " has been modified")
            ("stored checksum: " ++ e2.checksum ++ ", current checksum: " ++
              m2.checksum))⟩)
    ∧ (∀ m3 : Migration, (∀ en ∈ st.ledger, en.name ≠ m3.name) →
        Tracker.VerifyChecksum st m3 = none) := by
  constructor
  · have hvm : Tracker.VerifyChecksum st m ≠ none := by
      unfold Tracker.VerifyChecksum
      rw [hfind]
      dsimp only
      rw [if_neg hne]
      simp
    obtain ⟨m2, hm2, err, herr, hloop⟩ := verifyChecksums_fail st all ⟨m, hm, hvm⟩
    obtain ⟨e2, hfind2, hne2, rfl⟩ := VerifyChecksum_some_elim herr
    refine ⟨m2, hm2, e2, hfind2, hne2, ?_⟩
    unfold Manager.RunMigrations
    rw [hload]
    simp [hloop]
  · intro m3 h3
    unfold Tracker.VerifyChecksum
    rw [List.find?_eq_none.mpr (fun en hen => by simpa using h3 en hen)]

/-- C1, witness: a tampered stored fingerprint for `a` makes `apply` fail
with the validation error naming `a`, leaving the state untouched, while a
definition absent from the ledger verifies as a no-op. -/
theorem C1_checksum_gate_witness :
    Manager.RunMigrations hashId exAllOk "migrations" [fileA] stTampered 0 =
      ⟨stTampered, [], some (newValidationError "Migration a has been modified"
        ("stored checksum: tampered, current checksum: " ++ migA.checksum))⟩
    ∧ Tracker.VerifyChecksum stTampered migB = none := by
  obtain ⟨⟨m2, hm2, e2, hf2, hne2, hrun⟩, hnoop⟩ :=
    C1_checksum_gate hashId exAllOk "migrations" [fileA] stTampered 0 [migA]
      migA ⟨1, "a", 1, "tampered"⟩ (by decide) (by decide) (by decide)
      (by decide)
  have hm2' : m2 = migA := List.mem_singleton.mp hm2
  subst hm2'
  have he2 : e2 = ⟨1, "a", 1, "tampered"⟩ :=
    (Option.some.inj ((by decide : stTampered.ledger.find?
      (fun en => en.name == migA.name) =
        some ⟨1, "a", 1, "tampered"⟩).symm.trans hf2)).symm
  subst he2
  exact ⟨hrun.trans (by decide), hnoop migB (by decide)⟩

/-! ## Lemmas about the batch maximum and the forward loop -/

/-- The fold computing `MAX(batch)` never drops below its seed. -/
theorem le_foldl_max : ∀ (l : List LedgerEntry) (a : Nat),
    a ≤ l.foldl (fun acc en => max acc en.batch) a := by
  intro l
  induction l with
  | nil => intro a; exact le_refl a
  | cons x xs ih =>
    intro a
    exact le_trans (le_max_left a x.batch) (ih (max a x.batch))

/-- Every member's batch is bounded by the fold. -/
theorem foldl_max_le_of_mem : ∀ (l : List LedgerEntry) (a : Nat)
    (e : LedgerEntry), e ∈ l →
    e.batch ≤ l.foldl (fun acc en => max acc en.batch) a := by
  intro l
  induction l with
  | nil => intro a e he; exact absurd he (List.not_mem_nil e)
  | cons x xs ih =>
    intro a e he
    rcases List.mem_cons.mp he with rfl | hm
    · exact le_trans (le_max_right a e.batch) (le_foldl_max xs (max a e.batch))
    · exact ih (max a x.batch) e hm

/-- The fold is the seed or some member's batch. -/
theorem foldl_max_cases : ∀ (l : List LedgerEntry) (a : Nat),
    l.foldl (fun acc en => max acc en.batch) a = a ∨
      ∃ e ∈ l, l.foldl (fun acc en => max acc en.batch) a = e.batch := by
  intro l
  induction l with
  | nil => intro a; exact Or.inl rfl
  | cons x xs ih =>
    intro a
    rcases ih (max a x.batch) with h | ⟨e, he, h⟩
    · rcases max_choice a x.batch with hm | hm
      · exact Or.inl (by rw [List.foldl_cons, h, hm])
      · exact Or.inr ⟨x, List.mem_cons_self _ _, by rw [List.foldl_cons, h, hm]⟩
    · exact Or.inr ⟨e, List.mem_cons_of_mem _ he, by rw [List.foldl_cons, h]⟩

/-- Folding over entries that all carry batch `b`. -/
theorem foldl_max_const (b : Nat) : ∀ (l : List LedgerEntry) (a : Nat),
    (∀ e ∈ l, e.batch = b) → l ≠ [] →
    l.foldl (fun acc en => max acc en.batch) a = max a b := by
  intro l
  induction l with
  | nil => intro a _ h; exact absurd rfl h
  | cons x xs ih =>
    intro a hb _
    rw [List.foldl_cons, hb x (List.mem_cons_self _ _)]
    by_cases hxs : xs = []
    · subst hxs; rfl
    · rw [ih (max a b) (fun e he => hb e (List.mem_cons_of_mem _ he)) hxs,
        max_assoc, max_self]

/-- Membership reading of the `contains` check on the ledger's name column. -/
theorem contains_map_name (l : List LedgerEntry) (nm : String) :
    ((l.map (·.name)).contains nm = true) ↔ ∃ e ∈ l, e.name = nm := by
  induction l with
  | nil => simp
  | cons x xs ih =>
    simp only [List.map_cons, List.contains_cons, Bool.or_eq_true, beq_iff_eq, ih]
    constructor
    · rintro (h | ⟨e, he, hee⟩)
      · exact ⟨x, List.mem_cons_self _ _, h.symm⟩
      · exact ⟨e, List.mem_cons_of_mem _ he, hee⟩
    · rintro ⟨e, he, hee⟩
      rcases List.mem_cons.mp he with rfl | hm
      · exact Or.inl hee.symm
      · exact Or.inr ⟨e, hm, hee⟩

/-- Negative reading of the `contains` check on the name column. -/
theorem contains_map_name_false {l : List LedgerEntry} {nm : String} :
    ((l.map (·.name)).contains nm = false) ↔ ∀ e ∈ l, e.name ≠ nm := by
  constructor
  · intro h e he hee
    have := (contains_map_name l nm).mpr ⟨e, he, hee⟩
    rw [h] at this
    exact Bool.false_ne_true this
  · intro h
    by_contra hc
    obtain ⟨e, he, hee⟩ := (contains_map_name l nm).mp (eq_true_of_ne_false hc)
    exact h e he hee

/-- A successful pass of the forward loop appends one fresh row per executed
migration, in order, all carrying the batch passed in; every executed name
was absent from the incoming ledger and the executed names are pairwise
distinct (both forced by the UNIQUE column). -/
theorem runMigrationsLoop_ok (dbExec : String → Option String) (b : Nat) :
    ∀ (migs : List Migration) (st : DBState),
      (Executor.runMigrationsLoop dbExec b st migs).err = none →
      ∃ news : List LedgerEntry,
        (Executor.runMigrationsLoop dbExec b st migs).state.ledger =
          st.ledger ++ news ∧
        news.map (fun e => (e.name, e.checksum, e.batch)) =
          migs.map (fun m => (m.name, m.checksum, b)) ∧
        (∀ m ∈ migs, (st.ledger.map (·.name)).contains m.name = false) ∧
        (migs.map (·.name)).Nodup := by
  intro migs
  induction migs with
  | nil =>
    intro st _
    exact ⟨[], by simp [Executor.runMigrationsLoop], by simp, by simp, by simp⟩
  | cons m rest ih =>
    intro st herr
    cases hex : (Executor.executeMigrationSQL dbExec m.upSQL m.name).2 with
    | some e =>
      have hbad : (Executor.runMigrationsLoop dbExec b st (m :: rest)).err =
          some e := by
        simp only [Executor.runMigrationsLoop, Executor.runSingleMigration, hex]
      rw [hbad] at herr
      exact Option.noConfusion herr
    | none =>
      cases hrec : Tracker.RecordMigration st m b with
      | error e =>
        have hbad : (Executor.runMigrationsLoop dbExec b st (m :: rest)).err =
            some e := by
          simp only [Executor.runMigrationsLoop, Executor.runSingleMigration,
            hex, hrec]
        rw [hbad] at herr
        exact Option.noConfusion herr
      | ok st2 =>
        have hcon : (st.ledger.map (·.name)).contains m.name = false := by
          by_contra hc
          rw [Tracker.RecordMigration, if_pos (eq_true_of_ne_false hc)] at hrec
          exact Except.noConfusion hrec
        have hst2 : st2 = ⟨st.ledger ++ [⟨st.nextId, m.name, b, m.checksum⟩],
            st.nextId + 1⟩ := by
          rw [Tracker.RecordMigration,
            if_neg (by rw [hcon]; exact Bool.false_ne_true)] at hrec
          exact (Except.ok.inj hrec).symm
        subst hst2
        have hloop : Executor.runMigrationsLoop dbExec b st (m :: rest) =
            ⟨(Executor.runMigrationsLoop dbExec b
                ⟨st.ledger ++ [⟨st.nextId, m.name, b, m.checksum⟩],
                 st.nextId + 1⟩ rest).state,
             (Executor.executeMigrationSQL dbExec m.upSQL m.name).1 ++
               (Executor.runMigrationsLoop dbExec b
                 ⟨st.ledger ++ [⟨st.nextId, m.name, b, m.checksum⟩],
                  st.nextId + 1⟩ rest).trace,
             (Executor.runMigrationsLoop dbExec b
               ⟨st.ledger ++ [⟨st.nextId, m.name, b, m.checksum⟩],
                st.nextId + 1⟩ rest).err⟩ := by
          simp only [Executor.runMigrationsLoop, Executor.runSingleMigration,
            hex, hrec]
        have herr2 : (Executor.runMigrationsLoop dbExec b
            ⟨st.ledger ++ [⟨st.nextId, m.name, b, m.checksum⟩],
             st.nextId + 1⟩ rest).err = none := by
          rw [hloop] at herr
          exact herr
        obtain ⟨news, hledger, hmap, hfresh, hnodup⟩ := ih _ herr2
        refine ⟨⟨st.nextId, m.name, b, m.checksum⟩ :: news, ?_, ?_, ?_, ?_⟩
        · rw [hloop]
          dsimp only
          rw [hledger]
          simp
        · simp only [List.map_cons, hmap]
        · intro m' hm'
          rcases List.mem_cons.mp hm' with rfl | hmr
          · exact hcon
          · have hfr := contains_map_name_false.mp (hfresh m' hmr)
            exact contains_map_name_false.mpr
              (fun e he => hfr e (List.mem_append_left _ he))
        · rw [List.map_cons]
          refine List.nodup_cons.mpr ⟨?_, hnodup⟩
          intro hmem
          obtain ⟨m', hm', hname⟩ := List.mem_map.mp hmem
          have hfr := contains_map_name_false.mp (hfresh m' hm')
          exact hfr ⟨st.nextId, m.name, b, m.checksum⟩
            (List.mem_append_right _ (List.mem_singleton.mpr rfl)) hname.symm

/-- Unfolding `Executor.RunMigrations` on a non-empty list. -/
theorem RunMigrations_ne_nil (dbExec : String → Option String) (st : DBState)
    (migs : List Migration) (limit : Int) (h : migs ≠ []) :
    Executor.RunMigrations dbExec st migs limit =
      Executor.runMigrationsLoop dbExec (Tracker.GetLastBatch st + 1) st
        (if 0 < limit ∧ limit < (migs.length : Int) then migs.take limit.toNat
         else migs) := by
  unfold Executor.RunMigrations
  rw [if_neg (by simpa using h)]

/-- Batch of every appended row, read off the loop's row description. -/
theorem news_batch_eq {news : List LedgerEntry} {migs : List Migration}
    {b : Nat}
    (h : news.map (fun e => (e.name, e.checksum, e.batch)) =
      migs.map (fun m => (m.name, m.checksum, b))) :
    ∀ e ∈ news, e.batch = b := by
  intro e he
  have hmem : (e.name, e.checksum, e.batch) ∈
      migs.map (fun m => (m.name, m.checksum, b)) := by
    rw [← h]
    exact List.mem_map_of_mem _ he
  obtain ⟨m', _, hm'⟩ := List.mem_map.mp hmem
  exact (congrArg (fun t : String × String × Nat => t.2.2) hm').symm

/-- Names of the appended rows, read off the loop's row description. -/
theorem news_names_eq {news : List LedgerEntry} {migs : List Migration}
    {b : Nat}
    (h : news.map (fun e => (e.name, e.checksum, e.batch)) =
      migs.map (fun m => (m.name, m.checksum, b))) :
    news.map (·.name) = migs.map (·.name) := by
  have h1 := congrArg (List.map (fun t : String × String × Nat => t.1)) h
  simpa [List.map_map, Function.comp] using h1

/-- A successful non-empty run appends at least one row. -/
theorem news_ne_nil {news : List LedgerEntry} {migs : List Migration} {b : Nat}
    (h : news.map (fun e => (e.name, e.checksum, e.batch)) =
      migs.map (fun m => (m.name, m.checksum, b)))
    (hm : migs ≠ []) : news ≠ [] := by
  intro hn
  subst hn
  exact hm (List.map_eq_nil_iff.mp h.symm)

/-- C4: `GetLastBatch` is 0 on an empty ledger and otherwise the maximum
batch number present; `Executor.RunMigrations` computes the next batch once,
before limiting, so a successful non-empty apply raises the last batch by
exactly 1 regardless of the limit and of how many migrations ran. -/
theorem C4_batch_monotonic (dbExec : String → Option String) (st : DBState)
    (migs : List Migration) (limit : Int) :
    (∀ n : Nat, Tracker.GetLastBatch ⟨[], n⟩ = 0)
    ∧ (∀ e ∈ st.ledger, e.batch ≤ Tracker.GetLastBatch st)
    ∧ (st.ledger ≠ [] → ∃ e ∈ st.ledger, Tracker.GetLastBatch st = e.batch)
    ∧ (migs ≠ [] → (Executor.RunMigrations dbExec st migs limit).err = none →
        Tracker.GetLastBatch
            (Executor.RunMigrations dbExec st migs limit).state =
          Tracker.GetLastBatch st + 1) := by
  refine ⟨fun n => rfl, ?_, ?_, ?_⟩
  · intro e he
    exact foldl_max_le_of_mem st.ledger 0 e he
  · intro hne
    rcases foldl_max_cases st.ledger 0 with h | ⟨e, he, h⟩
    · obtain ⟨e, he⟩ := List.exists_mem_of_ne_nil st.ledger hne
      refine ⟨e, he, ?_⟩
      have h1 := foldl_max_le_of_mem st.ledger 0 e he
      have h2 : Tracker.GetLastBatch st = 0 := h
      omega
    · exact ⟨e, he, h⟩
  · intro hmigs herr
    rw [RunMigrations_ne_nil dbExec st migs limit hmigs] at herr ⊢
    obtain ⟨news, hledger, hmap, -, -⟩ :=
      runMigrationsLoop_ok dbExec (Tracker.GetLastBatch st + 1) _ st herr
    have hne' : (if 0 < limit ∧ limit < (migs.length : Int) then
        migs.take limit.toNat else migs) ≠ [] := by
      split_ifs with hc
      · intro h0
        rcases List.take_eq_nil_iff.mp h0 with h1 | h1
        · omega
        · exact hmigs h1
      · exact hmigs
    have hnews : news ≠ [] := news_ne_nil hmap hne'
    have hbatch := news_batch_eq hmap
    show (Executor.runMigrationsLoop dbExec (Tracker.GetLastBatch st + 1) st
      _).state.ledger.foldl (fun acc en => max acc en.batch) 0 = _
    rw [hledger, List.foldl_append,
      foldl_max_const (Tracker.GetLastBatch st + 1) news _ hbatch hnews]
    exact max_eq_right (Nat.le_succ _)

/-- C4, witness: an empty ledger yields last batch 0; on a ledger whose last
batch is 2, a successful one-migration apply makes it 3. -/
theorem C4_batch_monotonic_witness :
    Tracker.GetLastBatch ⟨[], 0⟩ = 0
    ∧ (⟨1, "m1", 2, "c1"⟩ : LedgerEntry).batch ≤ Tracker.GetLastBatch stW4
    ∧ (∃ e ∈ stW4.ledger, Tracker.GetLastBatch stW4 = e.batch)
    ∧ Tracker.GetLastBatch (Executor.RunMigrations exAllOk stW4 [migB] 0).state =
        Tracker.GetLastBatch stW4 + 1 := by
  obtain ⟨h1, h2, h3, h4⟩ := C4_batch_monotonic exAllOk stW4 [migB] 0
  exact ⟨h1 0, h2 ⟨1, "m1", 2, "c1"⟩ (by decide), h3 (by decide),
    h4 (by decide) (by decide)⟩

/-! ## Lemmas about the rollback loop -/

/-- Membership reading of a `contains` check on a projected name list. -/
theorem contains_map_iff {α : Type} (l : List α) (f : α → String) (nm : String) :
    ((l.map f).contains nm = true) ↔ ∃ x ∈ l, f x = nm := by
  induction l with
  | nil => simp
  | cons x xs ih =>
    simp only [List.map_cons, List.contains_cons, Bool.or_eq_true, beq_iff_eq, ih]
    constructor
    · rintro (h | ⟨e, he, hee⟩)
      · exact ⟨x, List.mem_cons_self _ _, h.symm⟩
      · exact ⟨e, List.mem_cons_of_mem _ he, hee⟩
    · rintro ⟨e, he, hee⟩
      rcases List.mem_cons.mp he with rfl | hm
      · exact Or.inl hee.symm
      · exact Or.inr ⟨e, hm, hee⟩

/-- Negative reading of a `contains` check on a projected name list. -/
theorem contains_map_false_iff {α : Type} {l : List α} {f : α → String}
    {nm : String} :
    ((l.map f).contains nm = false) ↔ ∀ x ∈ l, f x ≠ nm := by
  constructor
  · intro h x hx hxe
    have := (contains_map_iff l f nm).mpr ⟨x, hx, hxe⟩
    rw [h] at this
    exact Bool.false_ne_true this
  · intro h
    by_contra hc
    obtain ⟨x, hx, hxe⟩ := (contains_map_iff l f nm).mp (eq_true_of_ne_false hc)
    exact h x hx hxe

/-- On an all-succeeding connection the rollback loop deletes exactly the
rows named by its input migrations, executes the kept statements of each
reverse body in the order given, and succeeds. -/
theorem rollbackMigrationsLoop_all_ok (dbExec : String → Option String)
    (hall : ∀ s, dbExec s = none) :
    ∀ (migs : List Migration) (st : DBState),
      Executor.rollbackMigrationsLoop dbExec st migs =
        ⟨⟨st.ledger.filter fun e => !((migs.map (·.name)).contains e.name),
          st.nextId⟩,
         (migs.map fun m => keptStatements m.downSQL).flatten, none⟩ := by
  intro migs
  induction migs with
  | nil =>
    intro st
    have h1 : (st.ledger.filter fun e =>
        !((([] : List Migration).map (·.name)).contains e.name)) = st.ledger := by
      simp
    show (⟨st, [], none⟩ : RunResult) = _
    rw [h1]
    rfl
  | cons m rest ih =>
    intro st
    have hexec := executeMigrationSQL_all_ok dbExec m.downSQL m.name
      (fun t _ => hall t)
    have hsingle : Executor.rollbackSingleMigration dbExec st m =
        ⟨Tracker.RemoveMigration st m, keptStatements m.downSQL, none⟩ := by
      simp only [Executor.rollbackSingleMigration, hexec]
    have hloop : Executor.rollbackMigrationsLoop dbExec st (m :: rest) =
        ⟨(Executor.rollbackMigrationsLoop dbExec
            (Tracker.RemoveMigration st m) rest).state,
         keptStatements m.downSQL ++ (Executor.rollbackMigrationsLoop dbExec
            (Tracker.RemoveMigration st m) rest).trace,
         (Executor.rollbackMigrationsLoop dbExec
            (Tracker.RemoveMigration st m) rest).err⟩ := by
      simp only [Executor.rollbackMigrationsLoop, hsingle]
    rw [hloop, ih (Tracker.RemoveMigration st m)]
    dsimp only [Tracker.RemoveMigration]
    rw [List.filter_filter]
    have hled : (st.ledger.filter fun a =>
        (!((rest.map (·.name)).contains a.name)) && !(a.name == m.name)) =
        st.ledger.filter fun e =>
          !(((m :: rest).map (·.name)).contains e.name) :=
      List.filter_congr fun e _ => by
        by_cases h : e.name = m.name <;>
          simp [h, List.contains_cons, Bool.not_or, Bool.and_comm]
    rw [hled]
    simp only [List.map_cons, List.flatten_cons]

/-- `Executor.RollbackMigrations` with limit 0 on an all-succeeding
connection: no truncation, deletion of exactly the named rows, the reverse
bodies' kept statements in order, no error. -/
theorem RollbackMigrations_all_ok (dbExec : String → Option String)
    (hall : ∀ s, dbExec s = none) (st : DBState) (migs : List Migration) :
    Executor.RollbackMigrations dbExec st migs 0 =
      ⟨⟨st.ledger.filter fun e => !((migs.map (·.name)).contains e.name),
        st.nextId⟩,
       (migs.map fun m => keptStatements m.downSQL).flatten, none⟩ := by
  unfold Executor.RollbackMigrations
  by_cases hm : migs.isEmpty
  · have hnil : migs = [] := List.isEmpty_iff.mp hm
    subst hnil
    rw [if_pos (show (List.isEmpty ([] : List Migration)) = true from rfl)]
    have h1 : (st.ledger.filter fun e =>
        !((([] : List Migration).map (·.name)).contains e.name)) = st.ledger := by
      simp
    show (⟨st, [], none⟩ : RunResult) = _
    rw [h1]
    rfl
  · rw [if_neg (by simpa using hm)]
    have hlim : ¬(0 < (0 : Int) ∧ (0 : Int) < (migs.length : Int)) := by omega
    rw [if_neg hlim]
    exact rollbackMigrationsLoop_all_ok dbExec hall migs st

/-- What a successful `migrationsMap` lookup returns. -/
theorem migrationsMapFind_mem {all : List Migration} {nm : String}
    {m : Migration} (h : Executor.migrationsMapFind all nm = some m) :
    m ∈ all ∧ m.name = nm := by
  unfold Executor.migrationsMapFind at h
  exact ⟨List.mem_reverse.mp (List.mem_of_find?_eq_some h),
    by simpa using List.find?_some h⟩

/-- C6: `rollbackLastBatch` reads the highest batch number; when it is 0 the
operation is a no-op returning success, and otherwise (when every row of that
batch has a matching definition and the reverse statements succeed) it
reverts exactly the rows of that batch — descending id order, i.e. the
reverse of the id-ascending ledger — executing each matching definition's
reverse body. -/
theorem C6_rollback_last_batch (hash : String → String)
    (dbExec : String → Option String) (p : String) (files : List FSFile)
    (st : DBState) (all : List Migration)
    (hload : LoadMigrations hash p files = .ok all)
    (hall : ∀ s, dbExec s = none)
    (hmatch : ∀ e ∈ Tracker.GetMigrationsByBatch st (Tracker.GetLastBatch st),
      (Executor.migrationsMapFind all e.name).isSome)
    (hnodup : (st.ledger.map (·.name)).Nodup) :
    (Tracker.GetLastBatch st = 0 →
      Manager.RollbackMigrations hash dbExec p files st = ⟨st, [], none⟩)
    ∧ (Tracker.GetLastBatch st ≠ 0 →
      Manager.RollbackMigrations hash dbExec p files st =
        ⟨⟨st.ledger.filter fun e => !(e.batch == Tracker.GetLastBatch st),
          st.nextId⟩,
         (((Tracker.GetMigrationsByBatch st (Tracker.GetLastBatch st)).filterMap
             fun e => Executor.migrationsMapFind all e.name).map
           fun m => keptStatements m.downSQL).flatten,
         none⟩) := by
  constructor
  · intro h0
    simp only [Manager.RollbackMigrations, hload]
    rw [if_pos h0]
  · intro hb
    have hex : ∃ e ∈ st.ledger, e.batch = Tracker.GetLastBatch st := by
      rcases foldl_max_cases st.ledger 0 with h | ⟨e, he, h⟩
      · exact absurd h hb
      · exact ⟨e, he, h.symm⟩
    obtain ⟨e0, he0, hb0⟩ := hex
    have hsel_ne : ¬ (Tracker.GetMigrationsByBatch st
        (Tracker.GetLastBatch st)).isEmpty = true := by
      rw [List.isEmpty_iff]
      intro hnil
      have hmem : e0 ∈ Tracker.GetMigrationsByBatch st
          (Tracker.GetLastBatch st) := by
        unfold Tracker.GetMigrationsByBatch
        rw [List.mem_reverse, List.mem_filter]
        exact ⟨he0, by simp [hb0]⟩
      rw [hnil] at hmem
      exact List.not_mem_nil e0 hmem
    simp only [Manager.RollbackMigrations, hload]
    rw [if_neg hb]
    unfold Executor.RollbackBatch
    rw [if_neg hsel_ne,
      RollbackMigrations_all_ok dbExec hall st _]
    have hled : (st.ledger.filter fun x =>
        !((((Tracker.GetMigrationsByBatch st (Tracker.GetLastBatch st)).filterMap
            fun e => Executor.migrationsMapFind all e.name).map (·.name)).contains
          x.name)) =
        st.ledger.filter fun e => !(e.batch == Tracker.GetLastBatch st) := by
      apply List.filter_congr
      intro x hx
      by_cases hxb : x.batch = Tracker.GetLastBatch st
      · have hxsel : x ∈ Tracker.GetMigrationsByBatch st
            (Tracker.GetLastBatch st) := by
          unfold Tracker.GetMigrationsByBatch
          rw [List.mem_reverse, List.mem_filter]
          exact ⟨hx, by simp [hxb]⟩
        obtain ⟨m, hm⟩ := Option.isSome_iff_exists.mp (hmatch x hxsel)
        have hcm : ((((Tracker.GetMigrationsByBatch st
            (Tracker.GetLastBatch st)).filterMap
              fun e => Executor.migrationsMapFind all e.name).map
            (·.name)).contains x.name) = true :=
          (contains_map_iff _ _ _).mpr
            ⟨m, List.mem_filterMap.mpr ⟨x, hxsel, hm⟩, (migrationsMapFind_mem hm).2⟩
        rw [hcm, hxb]
        simp
      · have hcm : ((((Tracker.GetMigrationsByBatch st
            (Tracker.GetLastBatch st)).filterMap
              fun e => Executor.migrationsMapFind all e.name).map
            (·.name)).contains x.name) = false := by
          rw [contains_map_false_iff]
          intro m hmem hname
          obtain ⟨e', he'sel, hfind⟩ := List.mem_filterMap.mp hmem
          have hm' := migrationsMapFind_mem hfind
          have he'led : e' ∈ st.ledger ∧ e'.batch = Tracker.GetLastBatch st := by
            unfold Tracker.GetMigrationsByBatch at he'sel
            rw [List.mem_reverse, List.mem_filter] at he'sel
            exact ⟨he'sel.1, by simpa using he'sel.2⟩
          have hxe : e' = x :=
            List.inj_on_of_nodup_map hnodup he'led.1 hx (hm'.2.symm.trans hname)
          exact hxb (hxe ▸ he'led.2)
        rw [hcm]
        simp [hxb]
    rw [hled]

/-- C6, witness: on an empty ledger the rollback is a no-op; with `a` and
`b` applied in batch 1 both are reverted, newest first, leaving the ledger
empty. -/
theorem C6_rollback_last_batch_witness :
    Manager.RollbackMigrations hashId exAllOk "migrations" [fileA, fileB]
        ⟨[], 1⟩ = ⟨⟨[], 1⟩, [], none⟩
    ∧ Manager.RollbackMigrations hashId exAllOk "migrations" [fileA, fileB]
        stAB = ⟨⟨[], 3⟩, ["DROP TABLE b", "DROP TABLE a"], none⟩ := by
  constructor
  · exact (C6_rollback_last_batch hashId exAllOk "migrations" [fileA, fileB]
      ⟨[], 1⟩ [migA, migB] (by decide) (fun s => rfl) (by decide)
      (by decide)).1 (by decide)
  · exact ((C6_rollback_last_batch hashId exAllOk "migrations" [fileA, fileB]
      stAB [migA, migB] (by decide) (fun s => rfl) (by decide)
      (by decide)).2 (by decide)).trans (by decide)

/-- C7: `rollbackSteps(n)` (for n ≥ 1) selects the n most-recently-applied
rows — the first n of the id-descending (reversed) ledger — and, when each
has a matching definition and the reverse statements succeed, reverts exactly
those rows in that order using the matching definitions' reverse bodies;
when fewer than n rows exist the selection is simply all of them (`take`
past the end), so the shortfall reverts everything and succeeds, and with
zero applied rows the call is a no-op. -/
theorem C7_rollback_steps (hash : String → String)
    (dbExec : String → Option String) (p : String) (files : List FSFile)
    (st : DBState) (steps : Int) (all : List Migration)
    (hload : LoadMigrations hash p files = .ok all)
    (hall : ∀ s, dbExec s = none)
    (hsteps : 1 ≤ steps)
    (hmatch : ∀ e ∈ st.ledger.reverse.take steps.toNat,
      (Executor.migrationsMapFind all e.name).isSome) :
    (st.ledger = [] →
      Manager.RollbackSteps hash dbExec p files st steps = ⟨st, [], none⟩)
    ∧ (st.ledger ≠ [] →
      Manager.RollbackSteps hash dbExec p files st steps =
        ⟨⟨st.ledger.filter fun e =>
            !(((st.ledger.reverse.take steps.toNat).map (·.name)).contains
              e.name), st.nextId⟩,
         (((st.ledger.reverse.take steps.toNat).filterMap
             fun e => Executor.migrationsMapFind all e.name).map
           fun m => keptStatements m.downSQL).flatten,
         none⟩) := by
  constructor
  · intro h0
    simp only [Manager.RollbackSteps, hload, Tracker.GetExecutedMigrations, h0]
    rw [if_pos (show (List.isEmpty ([] : List LedgerEntry)) = true from rfl)]
  · intro hne
    have hsel : (if 0 < steps ∧ steps < ((st.ledger.reverse).length : Int) then
        (st.ledger.reverse).take steps.toNat else st.ledger.reverse) =
        (st.ledger.reverse).take steps.toNat := by
      split_ifs with hc
      · rfl
      · rcases not_and_or.mp hc with h | h
        · omega
        · rw [List.take_of_length_le]
          omega
    simp only [Manager.RollbackSteps, hload, Tracker.GetExecutedMigrations]
    rw [if_neg (by simpa [List.isEmpty_iff] using hne), hsel,
      RollbackMigrations_all_ok dbExec hall st _]
    have hled : (st.ledger.filter fun x =>
        !((((st.ledger.reverse.take steps.toNat).filterMap
            fun e => Executor.migrationsMapFind all e.name).map (·.name)).contains
          x.name)) =
        st.ledger.filter fun e =>
          !(((st.ledger.reverse.take steps.toNat).map (·.name)).contains
            e.name) := by
      apply List.filter_congr
      intro x _
      congr 1
      by_cases hxc : ∃ e' ∈ st.ledger.reverse.take steps.toNat, e'.name = x.name
      · obtain ⟨e', he', hn⟩ := hxc
        obtain ⟨m, hm⟩ := Option.isSome_iff_exists.mp (hmatch e' he')
        rw [(contains_map_iff _ _ _).mpr
            ⟨m, List.mem_filterMap.mpr ⟨e', he', hm⟩,
             (migrationsMapFind_mem hm).2.trans hn⟩,
          (contains_map_iff _ _ _).mpr ⟨e', he', hn⟩]
      · have h1 : ((((st.ledger.reverse.take steps.toNat).filterMap
            fun e => Executor.migrationsMapFind all e.name).map
              (·.name)).contains x.name) = false :=
          contains_map_false_iff.mpr (fun m hmem hmn => by
            obtain ⟨e', he', hf⟩ := List.mem_filterMap.mp hmem
            exact hxc ⟨e', he', ((migrationsMapFind_mem hf).2.symm.trans hmn)⟩)
        have h2 : (((st.ledger.reverse.take steps.toNat).map
            (·.name)).contains x.name) = false :=
          contains_map_false_iff.mpr (fun e' he' hn => hxc ⟨e', he', hn⟩)
        rw [h1, h2]
    rw [hled]

/-- C7, witness: with zero applied migrations `rollbackSteps(1)` is a no-op;
with one applied migration `rollbackSteps(2)` reverts exactly that one and
succeeds instead of erroring on the shortfall. -/
theorem C7_rollback_steps_witness :
    Manager.RollbackSteps hashId exAllOk "migrations" [fileA] ⟨[], 1⟩ 1 =
      ⟨⟨[], 1⟩, [], none⟩
    ∧ Manager.RollbackSteps hashId exAllOk "migrations" [fileA] stA 2 =
      ⟨⟨[], 2⟩, ["DROP TABLE a"], none⟩ := by
  constructor
  · exact (C7_rollback_steps hashId exAllOk "migrations" [fileA] ⟨[], 1⟩ 1
      [migA] (by decide) (fun s => rfl) (by decide) (by decide)).1 rfl
  · exact ((C7_rollback_steps hashId exAllOk "migrations" [fileA] stA 2
      [migA] (by decide) (fun s => rfl) (by decide) (by decide)).2
      (by decide)).trans (by decide)

/-- C10: when an applied row's name has no matching definition among the
loaded files, every rollback operation silently skips it: `rollbackLastBatch`,
`rollbackSteps` and `resetAll` all return no error, the orphaned row stays in
the ledger, and the final-ledger formulas of all three operations show that
exactly the selected rows that do have matching definitions are removed, so
the remaining selected entries are still reverted. -/
theorem C10_missing_definition_skipped (hash : String → String)
    (dbExec : String → Option String) (p : String) (files : List FSFile)
    (st : DBState) (steps : Int) (e : LedgerEntry) (all : List Migration)
    (hload : LoadMigrations hash p files = .ok all)
    (hall : ∀ s, dbExec s = none)
    (he : e ∈ st.ledger)
    (hmiss : ∀ m ∈ all, m.name ≠ e.name)
    (hsteps : 1 ≤ steps) :
    ((Manager.RollbackMigrations hash dbExec p files st).err = none
      ∧ e ∈ (Manager.RollbackMigrations hash dbExec p files st).state.ledger
      ∧ (Tracker.GetLastBatch st ≠ 0 →
          (Manager.RollbackMigrations hash dbExec p files st).state.ledger =
            st.ledger.filter fun x =>
              !((((Tracker.GetMigrationsByBatch st
                  (Tracker.GetLastBatch st)).filterMap
                  fun en => Executor.migrationsMapFind all en.name).map
                (·.name)).contains x.name)))
    ∧ ((Manager.RollbackSteps hash dbExec p files st steps).err = none
      ∧ e ∈ (Manager.RollbackSteps hash dbExec p files st steps).state.ledger
      ∧ (Manager.RollbackSteps hash dbExec p files st steps).state.ledger =
          st.ledger.filter fun x =>
            !((((st.ledger.reverse.take steps.toNat).filterMap
                fun en => Executor.migrationsMapFind all en.name).map
              (·.name)).contains x.name))
    ∧ ((Manager.ResetAllMigrations hash dbExec p files st).err = none
      ∧ e ∈ (Manager.ResetAllMigrations hash dbExec p files st).state.ledger
      ∧ (Manager.ResetAllMigrations hash dbExec p files st).state.ledger =
          st.ledger.filter fun x =>
            !(((st.ledger.reverse.filterMap
                fun en => Executor.migrationsMapFind all en.name).map
              (·.name)).contains x.name)) := by
  have hne : st.ledger ≠ [] := List.ne_nil_of_mem he
  have hkeep : ∀ sel : List LedgerEntry,
      (((sel.filterMap fun en => Executor.migrationsMapFind all en.name).map
        (·.name)).contains e.name) = false := by
    intro sel
    rw [contains_map_false_iff]
    intro m hmem hmn
    obtain ⟨e', _, hf⟩ := List.mem_filterMap.mp hmem
    exact hmiss m (migrationsMapFind_mem hf).1 hmn
  refine ⟨?_, ?_, ?_⟩
  · by_cases hb : Tracker.GetLastBatch st = 0
    · have hrun : Manager.RollbackMigrations hash dbExec p files st =
          ⟨st, [], none⟩ := by
        simp only [Manager.RollbackMigrations, hload]
        rw [if_pos hb]
      rw [hrun]
      exact ⟨rfl, he, fun hbne => absurd hb hbne⟩
    · have hexb : ∃ e0 ∈ st.ledger, e0.batch = Tracker.GetLastBatch st := by
        rcases foldl_max_cases st.ledger 0 with h | ⟨e0, he0, h⟩
        · exact absurd h hb
        · exact ⟨e0, he0, h.symm⟩
      obtain ⟨e0, he0, hb0⟩ := hexb
      have hsel_ne : ¬ (Tracker.GetMigrationsByBatch st
          (Tracker.GetLastBatch st)).isEmpty = true := by
        rw [List.isEmpty_iff]
        intro hnil
        have hmem : e0 ∈ Tracker.GetMigrationsByBatch st
            (Tracker.GetLastBatch st) := by
          unfold Tracker.GetMigrationsByBatch
          rw [List.mem_reverse, List.mem_filter]
          exact ⟨he0, by simp [hb0]⟩
        rw [hnil] at hmem
        exact List.not_mem_nil e0 hmem
      have hrun : Manager.RollbackMigrations hash dbExec p files st =
          ⟨⟨st.ledger.filter fun x =>
              !((((Tracker.GetMigrationsByBatch st
                  (Tracker.GetLastBatch st)).filterMap
                  fun en => Executor.migrationsMapFind all en.name).map
                (·.name)).contains x.name), st.nextId⟩,
           (((Tracker.GetMigrationsByBatch st
               (Tracker.GetLastBatch st)).filterMap
               fun en => Executor.migrationsMapFind all en.name).map
             fun m => keptStatements m.downSQL).flatten, none⟩ := by
        simp only [Manager.RollbackMigrations, hload]
        rw [if_neg hb]
        unfold Executor.RollbackBatch
        rw [if_neg hsel_ne, RollbackMigrations_all_ok dbExec hall st _]
      rw [hrun]
      exact ⟨rfl, List.mem_filter.mpr ⟨he, by rw [hkeep]; rfl⟩, fun _ => rfl⟩
  · have hsel : (if 0 < steps ∧ steps < ((st.ledger.reverse).length : Int) then
        (st.ledger.reverse).take steps.toNat else st.ledger.reverse) =
        (st.ledger.reverse).take steps.toNat := by
      split_ifs with hc
      · rfl
      · rcases not_and_or.mp hc with h | h
        · omega
        · rw [List.take_of_length_le]
          omega
    have hrun : Manager.RollbackSteps hash dbExec p files st steps =
        ⟨⟨st.ledger.filter fun x =>
            !((((st.ledger.reverse.take steps.toNat).filterMap
                fun en => Executor.migrationsMapFind all en.name).map
              (·.name)).contains x.name), st.nextId⟩,
         (((st.ledger.reverse.take steps.toNat).filterMap
             fun en => Executor.migrationsMapFind all en.name).map
           fun m => keptStatements m.downSQL).flatten, none⟩ := by
      simp only [Manager.RollbackSteps, hload, Tracker.GetExecutedMigrations]
      rw [if_neg (by simpa [List.isEmpty_iff] using hne), hsel,
        RollbackMigrations_all_ok dbExec hall st _]
    rw [hrun]
    exact ⟨rfl, List.mem_filter.mpr ⟨he, by rw [hkeep]; rfl⟩, rfl⟩
  · have hrun : Manager.ResetAllMigrations hash dbExec p files st =
        ⟨⟨st.ledger.filter fun x =>
            !(((st.ledger.reverse.filterMap
                fun en => Executor.migrationsMapFind all en.name).map
              (·.name)).contains x.name), st.nextId⟩,
         ((st.ledger.reverse.filterMap
             fun en => Executor.migrationsMapFind all en.name).map
           fun m => keptStatements m.downSQL).flatten, none⟩ := by
      simp only [Manager.ResetAllMigrations, hload, Executor.ResetAllMigrations,
        Tracker.GetExecutedMigrations]
      rw [if_neg (by simpa [List.isEmpty_iff] using hne),
        RollbackMigrations_all_ok dbExec hall st _]
    rw [hrun]
    exact ⟨rfl, List.mem_filter.mpr ⟨he, by rw [hkeep]; rfl⟩, rfl⟩

/-- C10, witness: with `a` applied plus an orphaned row `ghost` (no matching
file), all three rollback operations succeed, keep `ghost` in the ledger,
and still revert `a`: the final ledgers hold exactly the orphan. -/
theorem C10_missing_definition_skipped_witness :
    (Manager.RollbackMigrations hashId exAllOk "migrations" [fileA]
      stGhost).err = none
    ∧ (⟨2, "ghost", 1, "cg"⟩ : LedgerEntry) ∈
        (Manager.RollbackMigrations hashId exAllOk "migrations" [fileA]
          stGhost).state.ledger
    ∧ (Manager.RollbackMigrations hashId exAllOk "migrations" [fileA]
        stGhost).state.ledger = [⟨2, "ghost", 1, "cg"⟩]
    ∧ (Manager.RollbackSteps hashId exAllOk "migrations" [fileA]
        stGhost 2).state.ledger = [⟨2, "ghost", 1, "cg"⟩]
    ∧ (Manager.ResetAllMigrations hashId exAllOk "migrations" [fileA]
        stGhost).err = none
    ∧ (Manager.ResetAllMigrations hashId exAllOk "migrations" [fileA]
        stGhost).state.ledger = [⟨2, "ghost", 1, "cg"⟩] := by
  obtain ⟨⟨h1a, h1b, h1c⟩, ⟨h2a, h2b, h2c⟩, ⟨h3a, h3b, h3c⟩⟩ :=
    C10_missing_definition_skipped hashId exAllOk "migrations" [fileA] stGhost
      2 ⟨2, "ghost", 1, "cg"⟩ [migA] (by decide) (fun s => rfl) (by decide)
      (by decide) (by decide)
  exact ⟨h1a, h1b, (h1c (by decide)).trans (by decide),
    h2c.trans (by decide), h3a, h3c.trans (by decide)⟩

/-- The checksum-verification loop succeeds exactly when every definition
verifies. -/
theorem verifyChecksums_none_iff (st : DBState) :
    ∀ l : List Migration, Manager.verifyChecksums st l = none ↔
      ∀ m ∈ l, Tracker.VerifyChecksum st m = none := by
  intro l
  induction l with
  | nil => simp [Manager.verifyChecksums]
  | cons m rest ih =>
    cases hv : Tracker.VerifyChecksum st m with
    | some e =>
      simp only [Manager.verifyChecksums, hv]
      constructor
      · intro h; exact Option.noConfusion h
      · intro h
        exact absurd (h m (List.mem_cons_self _ _)) (by rw [hv]; simp)
    | none =>
      simp only [Manager.verifyChecksums, hv, ih]
      constructor
      · intro h m' hm'
        rcases List.mem_cons.mp hm' with rfl | hmr
        · exact hv
        · exact h m' hmr
      · intro h m' hm'
        exact h m' (List.mem_cons_of_mem _ hm')

/-- Verification is a no-op for a name with no ledger row. -/
theorem VerifyChecksum_none_of_absent {st : DBState} {m : Migration}
    (hf : st.ledger.find? (fun e => e.name == m.name) = none) :
    Tracker.VerifyChecksum st m = none := by
  unfold Tracker.VerifyChecksum
  rw [hf]

/-- Verification passes when the stored checksum matches. -/
theorem VerifyChecksum_none_of_eq {st : DBState} {m : Migration}
    {en : LedgerEntry}
    (hf : st.ledger.find? (fun e => e.name == m.name) = some en)
    (hcs : en.checksum = m.checksum) :
    Tracker.VerifyChecksum st m = none := by
  unfold Tracker.VerifyChecksum
  rw [hf]
  dsimp only
  rw [if_pos hcs]

/-- A passing verification with a found row forces checksum equality. -/
theorem VerifyChecksum_checksum_eq {st : DBState} {m : Migration}
    {en : LedgerEntry}
    (hf : st.ledger.find? (fun e => e.name == m.name) = some en)
    (h : Tracker.VerifyChecksum st m = none) : en.checksum = m.checksum := by
  by_contra hcs
  unfold Tracker.VerifyChecksum at h
  rw [hf] at h
  dsimp only at h
  rw [if_neg hcs] at h
  exact Option.noConfusion h

/-- A definition not named by any ledger row is pending. -/
theorem mem_pending_of_not_applied {st : DBState} {all : List Migration}
    {m : Migration} (hm : m ∈ all) (hc : ∀ e ∈ st.ledger, e.name ≠ m.name) :
    m ∈ Tracker.GetPendingMigrations st all := by
  unfold Tracker.GetPendingMigrations Tracker.GetExecutedMigrations
  rw [List.mem_filter]
  refine ⟨hm, ?_⟩
  rw [contains_map_name_false.mpr hc]
  rfl

/-- The pending set is empty exactly when every definition has a ledger
row. -/
theorem pending_eq_nil_iff (st : DBState) (all : List Migration) :
    Tracker.GetPendingMigrations st all = [] ↔
      ∀ m ∈ all, ∃ en ∈ st.ledger, en.name = m.name := by
  unfold Tracker.GetPendingMigrations Tracker.GetExecutedMigrations
  rw [List.filter_eq_nil_iff]
  constructor
  · intro h m hm
    have h1 := h m hm
    cases hcc : ((st.ledger.map (·.name)).contains m.name) with
    | true => exact (contains_map_name _ _).mp hcc
    | false =>
      exact absurd (show (!((st.ledger.map (·.name)).contains m.name)) = true
        by rw [hcc]; rfl) h1
  · intro h m hm
    obtain ⟨en, hen, hn⟩ := h m hm
    rw [(contains_map_name _ _).mpr ⟨en, hen, hn⟩]
    simp

/-- C5: `apply(0)` is idempotent — when a first `apply(0)` succeeds, every
discovered migration has a ledger row afterwards, so an immediate second
`apply(0)` computes an empty pending set and returns success having executed
nothing and left the state unchanged. -/
theorem C5_apply_idempotent (hash : String → String)
    (dbExec : String → Option String) (p : String) (files : List FSFile)
    (st : DBState)
    (hok : (Manager.RunMigrations hash dbExec p files st 0).err = none) :
    ∃ all, LoadMigrations hash p files = .ok all
      ∧ Tracker.GetPendingMigrations
          (Manager.RunMigrations hash dbExec p files st 0).state all = []
      ∧ Manager.RunMigrations hash dbExec p files
          (Manager.RunMigrations hash dbExec p files st 0).state 0 =
        ⟨(Manager.RunMigrations hash dbExec p files st 0).state, [], none⟩ := by
  cases hload : LoadMigrations hash p files with
  | error e =>
    have hbad : (Manager.RunMigrations hash dbExec p files st 0).err = some e := by
      simp only [Manager.RunMigrations, hload]
    rw [hbad] at hok
    exact Option.noConfusion hok
  | ok all =>
    cases hver : Manager.verifyChecksums st all with
    | some e =>
      have hbad : (Manager.RunMigrations hash dbExec p files st 0).err =
          some e := by
        simp only [Manager.RunMigrations, hload, hver]
      rw [hbad] at hok
      exact Option.noConfusion hok
    | none =>
      have hrun1 : Manager.RunMigrations hash dbExec p files st 0 =
          Executor.RunMigrations dbExec st
            (Tracker.GetPendingMigrations st all) 0 := by
        simp only [Manager.RunMigrations, hload, hver]
      by_cases hpend : Tracker.GetPendingMigrations st all = []
      · have hex : Executor.RunMigrations dbExec st
            (Tracker.GetPendingMigrations st all) 0 = ⟨st, [], none⟩ := by
          rw [hpend]
          rfl
        have hst1 : (Manager.RunMigrations hash dbExec p files st 0).state =
            st := by
          rw [hrun1, hex]
        refine ⟨all, rfl, ?_, ?_⟩
        · rw [hst1]
          exact hpend
        · rw [hst1, hrun1, hex]
      · have hif : (if 0 < (0 : Int) ∧ (0 : Int) <
            ((Tracker.GetPendingMigrations st all).length : Int) then
              (Tracker.GetPendingMigrations st all).take (0 : Int).toNat
            else Tracker.GetPendingMigrations st all) =
            Tracker.GetPendingMigrations st all := by
          rw [if_neg (by omega)]
        have hrun1' : Manager.RunMigrations hash dbExec p files st 0 =
            Executor.runMigrationsLoop dbExec (Tracker.GetLastBatch st + 1) st
              (Tracker.GetPendingMigrations st all) := by
          rw [hrun1, RunMigrations_ne_nil dbExec st _ 0 hpend, hif]
        have herr1 : (Executor.runMigrationsLoop dbExec
            (Tracker.GetLastBatch st + 1) st
            (Tracker.GetPendingMigrations st all)).err = none := by
          rw [← hrun1']
          exact hok
        obtain ⟨news, hledger, hmap, hfresh, hnodup⟩ :=
          runMigrationsLoop_ok dbExec (Tracker.GetLastBatch st + 1) _ st herr1
        have hnames := news_names_eq hmap
        have hst1 : (Manager.RunMigrations hash dbExec p files st 0).state =
            (Executor.runMigrationsLoop dbExec (Tracker.GetLastBatch st + 1) st
              (Tracker.GetPendingMigrations st all)).state := by
          rw [hrun1']
        have hmem_st1 : ∀ m ∈ all, ∃ en ∈ (Executor.runMigrationsLoop dbExec
            (Tracker.GetLastBatch st + 1) st
            (Tracker.GetPendingMigrations st all)).state.ledger,
            en.name = m.name := by
          intro m hm
          by_cases hc : ∃ en ∈ st.ledger, en.name = m.name
          · obtain ⟨en, hen, hn⟩ := hc
            exact ⟨en, by rw [hledger]; exact List.mem_append_left _ hen, hn⟩
          · have hmp : m ∈ Tracker.GetPendingMigrations st all :=
              mem_pending_of_not_applied hm
                (fun en hen hn => hc ⟨en, hen, hn⟩)
            have hmn : m.name ∈ news.map (·.name) := by
              rw [hnames]
              exact List.mem_map_of_mem _ hmp
            obtain ⟨en, hen, hn⟩ := List.mem_map.mp hmn
            exact ⟨en, by rw [hledger]; exact List.mem_append_right _ hen, hn⟩
        have hpend2 : Tracker.GetPendingMigrations
            (Executor.runMigrationsLoop dbExec (Tracker.GetLastBatch st + 1) st
              (Tracker.GetPendingMigrations st all)).state all = [] :=
          (pending_eq_nil_iff _ all).mpr hmem_st1
        have hver2 : Manager.verifyChecksums
            (Executor.runMigrationsLoop dbExec (Tracker.GetLastBatch st + 1) st
              (Tracker.GetPendingMigrations st all)).state all = none := by
          rw [verifyChecksums_none_iff]
          intro m hm
          have hfind1 : (Executor.runMigrationsLoop dbExec
              (Tracker.GetLastBatch st + 1) st
              (Tracker.GetPendingMigrations st all)).state.ledger.find?
                (fun en => en.name == m.name) =
              (st.ledger.find? (fun en => en.name == m.name)).or
                (news.find? (fun en => en.name == m.name)) := by
            rw [hledger, List.find?_append]
          cases hf : st.ledger.find? (fun en => en.name == m.name) with
          | some en =>
            have hcs : en.checksum = m.checksum :=
              VerifyChecksum_checksum_eq hf
                ((verifyChecksums_none_iff st all).mp hver m hm)
            exact VerifyChecksum_none_of_eq
              (by rw [hfind1, hf, Option.or_some]) hcs
          | none =>
            cases hfn : news.find? (fun en => en.name == m.name) with
            | none =>
              exact VerifyChecksum_none_of_absent (by rw [hfind1, hf, hfn]; rfl)
            | some en =>
              have hen_news : en ∈ news := List.mem_of_find?_eq_some hfn
              have hen_name : en.name = m.name := by
                simpa using List.find?_some hfn
              have htup : (en.name, en.checksum, en.batch) ∈
                  (Tracker.GetPendingMigrations st all).map
                    (fun m' => (m'.name, m'.checksum,
                      Tracker.GetLastBatch st + 1)) := by
                rw [← hmap]
                exact List.mem_map_of_mem _ hen_news
              obtain ⟨m', hm'p, hmeq⟩ := List.mem_map.mp htup
              have hm'name : m'.name = m.name := by
                have := congrArg (fun t : String × String × Nat => t.1) hmeq
                simpa using this.trans hen_name
              have hm'cs : m'.checksum = en.checksum := by
                have := congrArg (fun t : String × String × Nat => t.2.1) hmeq
                simpa using this
              have hmp : m ∈ Tracker.GetPendingMigrations st all :=
                mem_pending_of_not_applied hm (fun en' hen' hn' => by
                  have := List.find?_eq_none.mp hf en' hen'
                  simp [hn'] at this)
              have hm'm : m' = m :=
                List.inj_on_of_nodup_map hnodup hm'p hmp hm'name
              exact VerifyChecksum_none_of_eq
                (by rw [hfind1, hf, hfn]; rfl)
                (hm'm ▸ hm'cs).symm
        refine ⟨all, rfl, ?_, ?_⟩
        · rw [hst1]
          exact hpend2
        · rw [hst1]
          simp only [Manager.RunMigrations, hload, hver2]
          rw [hpend2]
          rfl

/-- C5, witness: applying a single good migration onto an empty ledger, a
second `apply(0)` finds nothing pending and changes nothing. -/
theorem C5_apply_idempotent_witness :
    Tracker.GetPendingMigrations
      (Manager.RunMigrations hashId exAllOk "migrations" [fileA]
        ⟨[], 1⟩ 0).state [migA] = []
    ∧ Manager.RunMigrations hashId exAllOk "migrations" [fileA]
        (Manager.RunMigrations hashId exAllOk "migrations" [fileA]
          ⟨[], 1⟩ 0).state 0 =
      ⟨(Manager.RunMigrations hashId exAllOk "migrations" [fileA]
         ⟨[], 1⟩ 0).state, [], none⟩ := by
  obtain ⟨all, hall, hpend, hsecond⟩ :=
    C5_apply_idempotent hashId exAllOk "migrations" [fileA] ⟨[], 1⟩ (by decide)
  have heq : all = [migA] :=
    (Except.ok.inj ((show LoadMigrations hashId "migrations" [fileA] =
      .ok [migA] from by decide).symm.trans hall)).symm
  subst heq
  exact ⟨hpend, hsecond⟩

/-! ## Lemmas about discovery and sorting -/

/-- Totality of the filename order. -/
theorem charListLe_total : ∀ a b : List Char,
    charListLe a b = true ∨ charListLe b a = true := by
  intro a
  induction a with
  | nil => intro b; exact Or.inl rfl
  | cons x xs ih =>
    intro b
    cases b with
    | nil => exact Or.inr rfl
    | cons y ys =>
      by_cases h1 : x.toNat < y.toNat
      · exact Or.inl (by simp [charListLe, h1])
      · by_cases h2 : x.toNat = y.toNat
        · rcases ih ys with h | h
          · exact Or.inl (by simp [charListLe, h1, h2, h])
          · exact Or.inr (by
              simp [charListLe, show ¬ y.toNat < x.toNat by omega, h2.symm, h])
        · have h3 : y.toNat < x.toNat := by omega
          exact Or.inr (by simp [charListLe, h3])

/-- Transitivity of the filename order. -/
theorem charListLe_trans : ∀ a b c : List Char,
    charListLe a b = true → charListLe b c = true →
    charListLe a c = true := by
  intro a
  induction a with
  | nil => intro b c _ _; rfl
  | cons x xs ih =>
    intro b c hab hbc
    cases b with
    | nil => exact absurd hab (by simp [charListLe])
    | cons y ys =>
      cases c with
      | nil => exact absurd hbc (by simp [charListLe])
      | cons z zs =>
        by_cases hxy1 : x.toNat < y.toNat
        · by_cases hyz1 : y.toNat < z.toNat
          · simp [charListLe, show x.toNat < z.toNat by omega]
          · by_cases hyz2 : y.toNat = z.toNat
            · simp [charListLe, show x.toNat < z.toNat by omega]
            · rw [show charListLe (y :: ys) (z :: zs) = false from
                by simp [charListLe, hyz1, hyz2]] at hbc
              exact absurd hbc (by simp)
        · by_cases hxy2 : x.toNat = y.toNat
          · have hab' : charListLe xs ys = true := by
              simpa [charListLe, hxy1, hxy2] using hab
            by_cases hyz1 : y.toNat < z.toNat
            · simp [charListLe, show x.toNat < z.toNat by omega]
            · by_cases hyz2 : y.toNat = z.toNat
              · have hbc' : charListLe ys zs = true := by
                  simpa [charListLe, hyz1, hyz2] using hbc
                have hxz1 : ¬ x.toNat < z.toNat := by omega
                have hxz2 : x.toNat = z.toNat := by omega
                simp [charListLe, hxz1, hxz2, ih ys zs hab' hbc']
              · rw [show charListLe (y :: ys) (z :: zs) = false from
                  by simp [charListLe, hyz1, hyz2]] at hbc
                exact absurd hbc (by simp)
          · rw [show charListLe (x :: xs) (y :: ys) = false from
              by simp [charListLe, hxy1, hxy2]] at hab
            exact absurd hab (by simp)

/-- Inserting keeps a permutation with consing. -/
theorem insertByFilename_perm (m : Migration) :
    ∀ l : List Migration, (insertByFilename m l).Perm (m :: l) := by
  intro l
  induction l with
  | nil => exact List.Perm.refl _
  | cons x xs ih =>
    unfold insertByFilename
    by_cases h : strLeB m.filename x.filename = true
    · rw [if_pos h]
    · rw [if_neg h]
      exact (List.Perm.cons x ih).trans (List.Perm.swap m x xs)

/-- The model sort is a permutation of its input. -/
theorem sortByFilename_perm : ∀ l : List Migration,
    (sortByFilename l).Perm l := by
  intro l
  induction l with
  | nil => exact List.Perm.refl _
  | cons m ms ih =>
    exact (insertByFilename_perm m (sortByFilename ms)).trans
      (List.Perm.cons m ih)

/-- Inserting preserves sortedness by filename. -/
theorem insertByFilename_sorted (m : Migration) :
    ∀ l : List Migration,
    List.Pairwise (fun a b => strLeB a.filename b.filename = true) l →
    List.Pairwise (fun a b => strLeB a.filename b.filename = true)
      (insertByFilename m l) := by
  intro l
  induction l with
  | nil => intro _; exact List.pairwise_singleton _ _
  | cons x xs ih =>
    intro hp
    obtain ⟨hx, hxs⟩ := List.pairwise_cons.mp hp
    unfold insertByFilename
    by_cases h : strLeB m.filename x.filename = true
    · rw [if_pos h]
      refine List.pairwise_cons.mpr ⟨?_, hp⟩
      intro b hb
      rcases List.mem_cons.mp hb with rfl | hbx
      · exact h
      · exact charListLe_trans _ _ _ h (hx b hbx)
    · rw [if_neg h]
      refine List.pairwise_cons.mpr ⟨?_, ih hxs⟩
      intro b hb
      have hb' : b ∈ m :: xs := (insertByFilename_perm m xs).subset hb
      rcases List.mem_cons.mp hb' with rfl | hbxs
      · rcases charListLe_total b.filename.data x.filename.data with h1 | h1
        · exact absurd h1 h
        · exact h1
      · exact hx b hbxs

/-- The model sort is sorted ascending by filename. -/
theorem sortByFilename_sorted : ∀ l : List Migration,
    List.Pairwise (fun a b => strLeB a.filename b.filename = true)
      (sortByFilename l) := by
  intro l
  induction l with
  | nil => exact List.Pairwise.nil
  | cons m ms ih => exact insertByFilename_sorted m _ ih

/-- When every `.sql` file parses, the walk loop succeeds and yields exactly
the contribution of every file, at any depth, in walk order. -/
theorem loadMigrationsLoop_complete (hash : String → String) (p : String) :
    ∀ files : List FSFile,
      (∀ f ∈ files, hasSuffixStr (fullPath p f) ".sql" = true →
        (ParseMigrationFilename (baseName f)).isSome) →
      loadMigrationsLoop hash p files =
        .ok (files.filterMap (loadedFile? hash p)) := by
  intro files
  induction files with
  | nil => intro _; rfl
  | cons f rest ih =>
    intro h
    have hrest := fun g hg hs => h g (List.mem_cons_of_mem f hg) hs
    by_cases hs : hasSuffixStr (fullPath p f) ".sql" = true
    · obtain ⟨parsed, hparsed⟩ :=
        Option.isSome_iff_exists.mp (h f (List.mem_cons_self _ _) hs)
      rw [List.filterMap_cons]
      simp only [loadedFile?, hs, if_true, loadMigrationFile, hparsed,
        Except.toOption]
      simp only [loadMigrationsLoop, hs, Bool.not_true, Bool.false_eq_true,
        if_false, loadMigrationFile, hparsed, ih hrest]
      rfl
    · rw [List.filterMap_cons]
      simp only [loadedFile?, hs, Bool.false_eq_true, if_false]
      simp only [loadMigrationsLoop]
      rw [if_pos (by simpa using hs)]
      exact ih hrest

/-- C3, counterexample.  The claim says discovery walks the migrations
directory non-recursively, ignoring subdirectories.  `filepath.WalkDir`
recurses (the callback returns nil — not SkipDir — for directories), so a
well-formed `.sql` file inside the subdirectory `sub` IS loaded: discovery
of this one-subdirectory tree returns one definition where the claim
demands zero. -/
theorem C3_cex_subdirectory_loaded :
    (∀ f ∈ cexC3Files, 2 ≤ f.path.length)
    ∧ LoadMigrations hashId "migrations" cexC3Files =
        .ok [⟨"a", "2024_01_01_000000_a.sql",
          "-- +migrate Up\nCREATE TABLE a (x INT);\n-- +migrate Down\nDROP TABLE a;",
          "CREATE TABLE a (x INT);", "DROP TABLE a;"⟩] := by
  exact ⟨by decide, by decide⟩

/-- C3, amended: discovery walks the migrations directory RECURSIVELY —
directory entries themselves and files whose path does not end in `.sql` are
skipped, but `.sql` files inside subdirectories are loaded like the rest.
When every such file has a well-formed name, the result is exactly one
parsed definition per `.sql` file at any depth, sorted ascending by
filename. -/
theorem C3_recursive_discovery (hash : String → String) (p : String)
    (files : List FSFile)
    (hvalid : ∀ f ∈ files, hasSuffixStr (fullPath p f) ".sql" = true →
      (ParseMigrationFilename (baseName f)).isSome) :
    ∃ ms, LoadMigrations hash p files = .ok ms
      ∧ ms.Perm (files.filterMap (loadedFile? hash p))
      ∧ List.Pairwise (fun a b => strLeB a.filename b.filename = true) ms
      ∧ ∀ f ∈ files, hasSuffixStr (fullPath p f) ".sql" = true →
          ∃ m ∈ ms, loadMigrationFile hash (baseName f) f.content = .ok m := by
  refine ⟨sortByFilename (files.filterMap (loadedFile? hash p)), ?_, ?_, ?_, ?_⟩
  · unfold LoadMigrations
    rw [loadMigrationsLoop_complete hash p files hvalid]
  · exact sortByFilename_perm _
  · exact sortByFilename_sorted _
  · intro f hf hs
    obtain ⟨parsed, hparsed⟩ :=
      Option.isSome_iff_exists.mp (hvalid f hf hs)
    have hok : loadMigrationFile hash (baseName f) f.content =
        .ok ⟨parsed.2, baseName f, hash f.content,
          (parseMigrationContent f.content).1,
          (parseMigrationContent f.content).2⟩ := by
      simp [loadMigrationFile, hparsed]
    refine ⟨_, ?_, hok⟩
    exact (sortByFilename_perm _).mem_iff.mpr
      (List.mem_filterMap.mpr ⟨f, hf,
        by simp [loadedFile?, hs, hok, Except.toOption]⟩)

/-- C3, witness for the amended theorem, at the subdirectory tree of the
counterexample. -/
theorem C3_recursive_discovery_witness :
    ∃ ms, LoadMigrations hashId "migrations" cexC3Files = .ok ms
      ∧ ms.Perm (cexC3Files.filterMap (loadedFile? hashId "migrations"))
      ∧ List.Pairwise (fun a b => strLeB a.filename b.filename = true) ms
      ∧ ∀ f ∈ cexC3Files,
          hasSuffixStr (fullPath "migrations" f) ".sql" = true →
          ∃ m ∈ ms, loadMigrationFile hashId (baseName f) f.content = .ok m :=
  C3_recursive_discovery hashId "migrations" cexC3Files (by decide)

end Vorm
